import Mathlib

/-! A shallow embedding of go-gitlab `deployments.go`.

The file embeds `DeploymentsService.ListDeployments` and the `Deployment`
record of `src/deployments.go`.

* Go strings that reach the URL are byte strings (`GoString`).
* The shared client (`s.client`) is a state plus a log of the calls made on it;
  its two methods `NewRequest` and `Do` are parameters.
* `url.QueryEscape` and `encoding/json` belong to the Go standard library and
  are embedded from their documented behaviour.
-/

set_option autoImplicit false
set_option exponentiation.threshold 2048

namespace Gitlab

/-! ## Go byte strings -/

/-- A Go `byte`. -/
abbrev Byte := Fin 256

/-- A Go `string`: an immutable sequence of bytes. -/
abbrev GoString := List Byte

/-- The byte with the given code (codes are taken below 256). -/
def byte (n : Nat) : Byte := Fin.ofNat n

/-- UTF-8 encoding of one code point, as Go stores string literals. -/
def utf8 (c : Char) : GoString :=
  let n := c.toNat
  if n < 0x80 then [byte n]
  else if n < 0x800 then [byte (0xC0 + n / 64), byte (0x80 + n % 64)]
  else if n < 0x10000 then
    [byte (0xE0 + n / 4096), byte (0x80 + n / 64 % 64), byte (0x80 + n % 64)]
  else
    [byte (0xF0 + n / 262144), byte (0x80 + n / 4096 % 64),
     byte (0x80 + n / 64 % 64), byte (0x80 + n % 64)]

/-- The Go string written as the literal `s`. -/
def str (s : String) : GoString := s.toList.flatMap utf8

/-- Digits of `strconv.Itoa` on a natural number, least significant first, with fuel. -/
def digitsRev : Nat → Nat → List Byte
  | 0, _ => []
  | fuel + 1, n => if n < 10 then [byte (48 + n)] else byte (48 + n % 10) :: digitsRev fuel (n / 10)

/-- Go `strconv.Itoa`: the decimal text of an `int`. -/
def Itoa (n : Int) : GoString :=
  match n with
  | Int.ofNat k => (digitsRev (k + 1) k).reverse
  | Int.negSucc k => byte 45 :: (digitsRev (k + 2) (k + 1)).reverse

/-! ## `net/url`: `QueryEscape` -/

/-- Go `net/url.shouldEscape(c, encodeQueryComponent)`: alphanumerics and the
marks `-`, `_`, `.`, `~` are kept; the reserved characters are escaped in a
query component; everything else is escaped. -/
def shouldEscape (c : Byte) : Bool :=
  if (97 ≤ c.val ∧ c.val ≤ 122) ∨ (65 ≤ c.val ∧ c.val ≤ 90) ∨ (48 ≤ c.val ∧ c.val ≤ 57) then
    false
  else if c.val = 45 ∨ c.val = 95 ∨ c.val = 46 ∨ c.val = 126 then
    false
  else if c.val = 36 ∨ c.val = 38 ∨ c.val = 43 ∨ c.val = 44 ∨ c.val = 47 ∨ c.val = 58 ∨
      c.val = 59 ∨ c.val = 61 ∨ c.val = 63 ∨ c.val = 64 then
    true
  else
    true

/-- Go `upperhex[i]` for the table `"0123456789ABCDEF"`. -/
def upperhex (i : Nat) : Byte :=
  if i < 10 then byte (48 + i) else byte (55 + i)

/-- The bytes the second loop of Go `net/url.escape` writes for one input byte
in mode `encodeQueryComponent`. -/
def escapeByte (c : Byte) : GoString :=
  if c.val = 32 then [byte 43]
  else if shouldEscape c then [byte 37, upperhex (c.val / 16), upperhex (c.val % 16)]
  else [c]

/-- Go `net/url.escape(s, encodeQueryComponent)`: count the spaces and the bytes
that need a hex escape; with none of either return `s` itself, otherwise
rewrite byte by byte. -/
def escape (s : GoString) : GoString :=
  let spaceCount := (s.filter (fun c => shouldEscape c && decide (c.val = 32))).length
  let hexCount := (s.filter (fun c => shouldEscape c && !decide (c.val = 32))).length
  if spaceCount = 0 ∧ hexCount = 0 then s else s.flatMap escapeByte

/-- Go `net/url.QueryEscape`. -/
def QueryEscape (s : GoString) : GoString := escape s

/-- The percent-encoding the specification describes: every byte that is not
an unreserved URL character is replaced by its `%XX` escape. -/
def pctEncodeByte (c : Byte) : GoString :=
  if (97 ≤ c.val ∧ c.val ≤ 122) ∨ (65 ≤ c.val ∧ c.val ≤ 90) ∨ (48 ≤ c.val ∧ c.val ≤ 57) ∨
      c.val = 45 ∨ c.val = 95 ∨ c.val = 46 ∨ c.val = 126 then [c]
  else [byte 37, upperhex (c.val / 16), upperhex (c.val % 16)]

/-- The specification's `pctEncode` on a whole string. -/
def pctEncode (s : GoString) : GoString := s.flatMap pctEncodeByte

/-! ## Data model (`src/deployments.go`, lines 36-41 and 67-123) -/

/-- Go `time.Time`: an instant (seconds and nanoseconds counted from
January 1, year 1, 00:00:00 UTC) with the offset of its zone. The zero value
is that origin in UTC. -/
structure Time where
  sec : Int := 0
  nsec : Nat := 0
  offset : Int := 0
  deriving DecidableEq, Repr

/-- A JSON value as `encoding/json` sees it after scanning. A number literal
without fraction or exponent is `int`; any other number literal is `float`, of
value `mantissa * 10 ^ exp10`. A string is held by its content (escapes
resolved, invalid code points replaced, as the decoder does). -/
inductive JSON where
  | null
  | bool (b : Bool)
  | int (n : Int)
  | float (mantissa : Int) (exp10 : Int)
  | str (s : String)
  | arr (items : List JSON)
  | obj (members : List (String × JSON))

/-- Go `strconv.ParseFloat(s, 64)` reports no range error: the magnitude
`m * 10 ^ e` rounds to a finite `float64`, that is, lies below
`2 ^ 1024 - 2 ^ 970`. -/
def fitsFloat64 (m : Int) (e : Int) : Bool :=
  if 0 ≤ e then decide (m.natAbs * 10 ^ e.toNat < 2 ^ 1024 - 2 ^ 970)
  else decide (m.natAbs < (2 ^ 1024 - 2 ^ 970) * 10 ^ (-e).toNat)

mutual
/-- The JSON values `encoding/json` stores into an `interface{}`: every number
in them converts to a `float64`. -/
def JSON.storable : JSON → Bool
  | JSON.int n => fitsFloat64 n 0
  | JSON.float m e => fitsFloat64 m e
  | JSON.arr items => storableItems items
  | JSON.obj members => storableMembers members
  | _ => true
/-- All items of an array are storable. -/
def storableItems : List JSON → Bool
  | [] => true
  | v :: rest => v.storable && storableItems rest
/-- All member values of an object are storable. -/
def storableMembers : List (String × JSON) → Bool
  | [] => true
  | (_, v) :: rest => v.storable && storableMembers rest
end

/-- The anonymous struct `Deployment.Deployable.Commit`. -/
structure DeployableCommit where
  AuthorEmail : String := ""
  AuthorName : String := ""
  CreatedAt : Time := {}
  ID : String := ""
  Message : String := ""
  ShortID : String := ""
  Title : String := ""

/-- The anonymous struct `Deployment.Deployable.User`. `Bio` and `Location`
are `interface{}`: they hold whatever JSON value was decoded (`null` is nil). -/
structure DeployableUser where
  AvatarURL : String := ""
  Bio : JSON := JSON.null
  CreatedAt : Time := {}
  ID : Int := 0
  Linkedin : String := ""
  Location : JSON := JSON.null
  Name : String := ""
  Skype : String := ""
  State : String := ""
  Twitter : String := ""
  Username : String := ""
  WebURL : String := ""
  WebsiteURL : String := ""

/-- The anonymous struct `Deployment.Deployable`. `Coverage`, `Runner` and
`StartedAt` are `interface{}`. -/
structure Deployable where
  Commit : DeployableCommit := {}
  Coverage : JSON := JSON.null
  CreatedAt : Time := {}
  FinishedAt : Time := {}
  ID : Int := 0
  Name : String := ""
  Ref : String := ""
  Runner : JSON := JSON.null
  Stage : String := ""
  StartedAt : JSON := JSON.null
  Status : String := ""
  Tag : Bool := false
  User : DeployableUser := {}

/-- The anonymous struct `Deployment.Environment`. -/
structure Environment where
  ExternalURL : String := ""
  ID : Int := 0
  Name : String := ""

/-- The anonymous struct `Deployment.User`. -/
structure User where
  AvatarURL : String := ""
  ID : Int := 0
  Name : String := ""
  State : String := ""
  Username : String := ""
  WebURL : String := ""

/-- Go `type Deployment struct`; the default of every field is its Go zero value. -/
structure Deployment where
  CreatedAt : Time := {}
  Deployable : Deployable := {}
  Environment : Environment := {}
  ID : Int := 0
  Iid : Int := 0
  Ref : String := ""
  Sha : String := ""
  User : User := {}

/-- Modelled from the spec: `ListOptions` is embedded by `ListDeploymentsOptions`
but declared outside `src/`; the spec gives it a page number and a page size,
sent as `page` and `per_page`. -/
structure ListOptions where
  Page : Int := 0
  PerPage : Int := 0
  deriving DecidableEq

/-- Go `type ListDeploymentsOptions struct`; a `*string` is an `Option`. The
field `Sort` is written `Sort_` (the plain word is reserved). -/
structure ListDeploymentsOptions extends ListOptions where
  OrderBy : Option GoString := none
  Sort_ : Option GoString := none
  Search : Option GoString := none
  deriving DecidableEq

/-- Modelled from the spec: the error kinds of section 7 (the Go error values
are built outside `src/`). -/
inductive Error where
  | InvalidIdentifier
  | TransportError (msg : String)
  | HTTPStatusError (status : Nat) (payload : String)
  | DecodeError (msg : String)
  deriving DecidableEq, Repr

/-- A Go slice: `none` is the nil slice. -/
abbrev Slice (α : Type) := Option (List α)

/-- A Go pointer: `none` is nil. -/
abbrev Ptr (α : Type) := Option α

/-- The dynamic values a caller can pass as `pid interface{}`. -/
inductive PID where
  | int (n : Int)
  | string (s : GoString)
  | other (typeName : String)
  deriving DecidableEq

/-! ## The shared client and `ListDeployments` -/

section Client

variable (Q R F σ : Type)

/-- A call made on the shared client. `Q` is `http.Request`, `F` is `OptionFunc`. -/
inductive Call where
  | NewRequest (method : GoString) (path : GoString) (opt : ListDeploymentsOptions)
      (options : List F)
  | Do (req : Ptr Q) (target : Slice (Ptr Deployment))

/-- What `Client.Do(req, &d)` leaves behind: the content of the decode target
`d` after the call, and the two values it returns. -/
structure DoResult where
  target : Slice (Ptr Deployment)
  resp : Ptr R
  err : Option Error

/-- The behaviour of the two methods of `*Client` that `ListDeployments` calls.
Both live outside `src/`, so they are parameters; each may read and change the
client state `σ`. -/
structure ClientMethods where
  NewRequest : GoString → GoString → ListDeploymentsOptions → List F → σ →
    (Ptr Q × Option Error) × σ
  Do : Ptr Q → Slice (Ptr Deployment) → σ → DoResult R × σ

/-- The shared client: its own state and the log of the calls made on it. -/
structure Client where
  state : σ
  log : List (Call Q F)

end Client

section ListDeployments

variable {Q R F σ : Type}

/-- The method call `s.client.NewRequest(...)`, recorded in the log. -/
def Client.NewRequest (m : ClientMethods Q R F σ) (c : Client Q F σ) (method path : GoString)
    (opt : ListDeploymentsOptions) (options : List F) :
    (Ptr Q × Option Error) × Client Q F σ :=
  let r := m.NewRequest method path opt options c.state
  (r.1, { state := r.2, log := c.log ++ [Call.NewRequest method path opt options] })

/-- The method call `s.client.Do(req, &d)`, recorded in the log. -/
def Client.Do (m : ClientMethods Q R F σ) (c : Client Q F σ) (req : Ptr Q)
    (d : Slice (Ptr Deployment)) : DoResult R × Client Q F σ :=
  let r := m.Do req d c.state
  (r.1, { state := r.2, log := c.log ++ [Call.Do req d] })

/-- Go `fmt.Sprintf("projects/%s/deployments", project)`. -/
def Sprintf_projects_deployments (project : GoString) : GoString :=
  str "projects/" ++ project ++ str "/deployments"

/-- Go `(s *DeploymentsService) ListDeployments(pid, opt, options...)`
(`src/deployments.go`, lines 46-65). `parseID` lives outside `src/` and is a
parameter. The result is the returned triple and the client afterwards. -/
def ListDeployments (parseID : PID → GoString × Option Error) (m : ClientMethods Q R F σ)
    (c : Client Q F σ) (pid : PID) (opt : ListDeploymentsOptions) (options : List F) :
    (Slice (Ptr Deployment) × Ptr R × Option Error) × Client Q F σ :=
  match parseID pid with
  | (_, some err) => ((none, none, some err), c)
  | (project, none) =>
    let u := Sprintf_projects_deployments (QueryEscape project)
    match c.NewRequest m (str "GET") u opt options with
    | ((_, some err), c1) => ((none, none, some err), c1)
    | ((req, none), c1) =>
      let d : Slice (Ptr Deployment) := none
      match c1.Do m req d with
      | (⟨_, resp, some err⟩, c2) => ((none, resp, some err), c2)
      | (⟨d, resp, none⟩, c2) => ((d, resp, none), c2)

end ListDeployments

/-- Modelled from the spec: how a project identifier resolves to a string
before validation (`parseID` is outside `src/`): a numeric identifier resolves
to its decimal text, a string to itself, nothing else resolves. -/
def resolveID : PID → Option GoString
  | PID.int n => some (Itoa n)
  | PID.string s => some s
  | PID.other _ => none

/-- Modelled from the spec: `parseID`, which is called by `ListDeployments` but
declared outside `src/`. The identifier "must resolve to a non-empty canonical
string identifier; otherwise fails with an `InvalidIdentifier` error". -/
def parseID (pid : PID) : GoString × Option Error :=
  match resolveID pid with
  | none => ([], some Error.InvalidIdentifier)
  | some s => if s = [] then ([], some Error.InvalidIdentifier) else (s, none)

/-! ## `encoding/json` on the `Deployment` type -/

/-- The JSON methods of Go `time.Time` (standard library), on the content of a
JSON string: `UnmarshalJSON` reads an RFC 3339 text, `MarshalJSON` writes one and
fails on a year outside 0..9999. They are parameters of the embedding. (Go
hands `UnmarshalJSON` the string as spelled in the body; time strings are taken
to be spelled without escape sequences.) -/
structure TimeJSON where
  UnmarshalJSON : String → Option Time
  MarshalJSON : Time → Option String

/-- Go `encoding/json` case folding of one rune of a key: ASCII letters fold to
upper case, U+017F (long s) folds to `S` and U+212A (Kelvin sign) to `K`. -/
def foldRune (c : Char) : Char :=
  if 97 ≤ c.toNat ∧ c.toNat ≤ 122 then Char.ofNat (c.toNat - 32)
  else if c.toNat = 0x17F then Char.ofNat 83
  else if c.toNat = 0x212A then Char.ofNat 75
  else c

/-- Go `encoding/json`: the case-insensitive comparison of a field name with an
object key (`field.equalFold`). -/
def equalFold (name key : String) : Bool :=
  name.toList.map foldRune == key.toList.map foldRune

/-- Go `int` is taken 64 bits wide: the numbers `encoding/json` stores into an
`int` field. -/
def inInt (n : Int) : Bool := decide (-9223372036854775808 ≤ n ∧ n ≤ 9223372036854775807)

/-- One field of a Go struct as `encoding/json` uses it: the name of its `json`
tag, the JSON values its Go type takes (`accepts`), the decoding of a value into
the field of a struct value (`set`, `none` is an error), and its encoding. -/
structure Field (S : Type) where
  name : String
  accepts : JSON → Bool
  set : JSON → S → Option S
  enc : S → Option JSON

section Codec

variable {S T : Type}

/-- The field an object key addresses (`decodeState.object`): the field whose
name is the key, else the first field whose name equals the key up to case. -/
def findField (fields : List (Field S)) (key : String) : Option (Field S) :=
  match fields.find? (fun f => f.name == key) with
  | some f => some f
  | none => fields.find? (fun f => equalFold f.name key)

/-- Decoding the members of a JSON object into a struct value, in the order of
the text: a key that addresses no field is skipped, a later member overwrites
an earlier one, an error ends the decoding. -/
def decodeMembers (fields : List (Field S)) : List (String × JSON) → S → Option S
  | [], s => some s
  | (k, v) :: rest, s =>
    match findField fields k with
    | none => decodeMembers fields rest s
    | some f =>
      match f.set v s with
      | none => none
      | some s1 => decodeMembers fields rest s1

/-- Encoding a struct value: one member per field, in declaration order (no
field of `Deployment` has `omitempty`). -/
def encodeMembers (s : S) : List (Field S) → Option (List (String × JSON))
  | [] => some []
  | f :: rest =>
    match f.enc s with
    | none => none
    | some j =>
      match encodeMembers s rest with
      | none => none
      | some ms => some ((f.name, j) :: ms)

/-- The names of the fields that the members of an object address, in order. -/
def addressed (fields : List (Field S)) (ms : List (String × JSON)) : List String :=
  ms.filterMap (fun m => (findField fields m.1).map (fun f => f.name))

/-- Every member that addresses a field carries a value the field accepts. -/
def typedMembers (fields : List (Field S)) (ms : List (String × JSON)) : Bool :=
  ms.all (fun m =>
    match findField fields m.1 with
    | none => true
    | some f => f.accepts m.2)

/-- A well-formed object for a struct type: no two members address the same
field, and every member that addresses a field carries a value of its type. -/
def wellFormed (fields : List (Field S)) (ms : List (String × JSON)) : Bool :=
  typedMembers fields ms && decide (addressed fields ms).Nodup

/-- A field of Go type `int`: `null` leaves it as it is, an integer literal that
fits is stored, anything else is an error. -/
def intField (name : String) (get : S → Int) (put : Int → S → S) : Field S where
  name := name
  accepts := fun v =>
    match v with
    | JSON.null => true
    | JSON.int n => inInt n
    | _ => false
  set := fun v s =>
    match v with
    | JSON.null => some s
    | JSON.int n => if inInt n then some (put n s) else none
    | _ => none
  enc := fun s => some (JSON.int (get s))

/-- A field of Go type `string`. -/
def stringField (name : String) (get : S → String) (put : String → S → S) : Field S where
  name := name
  accepts := fun v =>
    match v with
    | JSON.null => true
    | JSON.str _ => true
    | _ => false
  set := fun v s =>
    match v with
    | JSON.null => some s
    | JSON.str x => some (put x s)
    | _ => none
  enc := fun s => some (JSON.str (get s))

/-- A field of Go type `bool`. -/
def boolField (name : String) (get : S → Bool) (put : Bool → S → S) : Field S where
  name := name
  accepts := fun v =>
    match v with
    | JSON.null => true
    | JSON.bool _ => true
    | _ => false
  set := fun v s =>
    match v with
    | JSON.null => some s
    | JSON.bool b => some (put b s)
    | _ => none
  enc := fun s => some (JSON.bool (get s))

/-- A field of Go type `time.Time`: the value goes through the type's own JSON
methods, which ignore `null` and reject what is not a string. -/
def timeField (tc : TimeJSON) (name : String) (get : S → Time) (put : Time → S → S) :
    Field S where
  name := name
  accepts := fun v =>
    match v with
    | JSON.null => true
    | JSON.str x => (tc.UnmarshalJSON x).isSome
    | _ => false
  set := fun v s =>
    match v with
    | JSON.null => some s
    | JSON.str x =>
      match tc.UnmarshalJSON x with
      | none => none
      | some t => some (put t s)
    | _ => none
  enc := fun s =>
    match tc.MarshalJSON (get s) with
    | none => none
    | some x => some (JSON.str x)

/-- A field of Go type `interface{}`: it takes any JSON value whose numbers
convert to `float64` (`null` is nil) and gives it back on encoding. Go holds
the numbers there as `float64`; the embedding keeps the decoded value as it is. -/
def anyField (name : String) (get : S → JSON) (put : JSON → S → S) : Field S where
  name := name
  accepts := fun v => v.storable
  set := fun v s => if v.storable then some (put v s) else none
  enc := fun s => some (get s)

/-- A field whose Go type is a struct: `null` leaves it as it is, an object is
decoded into the value the field holds, anything else is an error. -/
def structField (name : String) (fields : List (Field T)) (get : S → T) (put : T → S → S) :
    Field S where
  name := name
  accepts := fun v =>
    match v with
    | JSON.null => true
    | JSON.obj ms => wellFormed fields ms
    | _ => false
  set := fun v s =>
    match v with
    | JSON.null => some s
    | JSON.obj ms =>
      match decodeMembers fields ms (get s) with
      | none => none
      | some t => some (put t s)
    | _ => none
  enc := fun s =>
    match encodeMembers (get s) fields with
    | none => none
    | some ms => some (JSON.obj ms)

end Codec

/-- The fields of `Deployment.Deployable.Commit` (lines 70-78). -/
def commitFields (tc : TimeJSON) : List (Field DeployableCommit) :=
  [ stringField "author_email" (fun s => s.AuthorEmail) (fun a s => { s with AuthorEmail := a }),
    stringField "author_name" (fun s => s.AuthorName) (fun a s => { s with AuthorName := a }),
    timeField tc "created_at" (fun s => s.CreatedAt) (fun a s => { s with CreatedAt := a }),
    stringField "id" (fun s => s.ID) (fun a s => { s with ID := a }),
    stringField "message" (fun s => s.Message) (fun a s => { s with Message := a }),
    stringField "short_id" (fun s => s.ShortID) (fun a s => { s with ShortID := a }),
    stringField "title" (fun s => s.Title) (fun a s => { s with Title := a }) ]

/-- The fields of `Deployment.Deployable.User` (lines 90-104). -/
def deployableUserFields (tc : TimeJSON) : List (Field DeployableUser) :=
  [ stringField "avatar_url" (fun s => s.AvatarURL) (fun a s => { s with AvatarURL := a }),
    anyField "bio" (fun s => s.Bio) (fun a s => { s with Bio := a }),
    timeField tc "created_at" (fun s => s.CreatedAt) (fun a s => { s with CreatedAt := a }),
    intField "id" (fun s => s.ID) (fun a s => { s with ID := a }),
    stringField "linkedin" (fun s => s.Linkedin) (fun a s => { s with Linkedin := a }),
    anyField "location" (fun s => s.Location) (fun a s => { s with Location := a }),
    stringField "name" (fun s => s.Name) (fun a s => { s with Name := a }),
    stringField "skype" (fun s => s.Skype) (fun a s => { s with Skype := a }),
    stringField "state" (fun s => s.State) (fun a s => { s with State := a }),
    stringField "twitter" (fun s => s.Twitter) (fun a s => { s with Twitter := a }),
    stringField "username" (fun s => s.Username) (fun a s => { s with Username := a }),
    stringField "web_url" (fun s => s.WebURL) (fun a s => { s with WebURL := a }),
    stringField "website_url" (fun s => s.WebsiteURL) (fun a s => { s with WebsiteURL := a }) ]

/-- The fields of `Deployment.Deployable` (lines 69-105). -/
def deployableFields (tc : TimeJSON) : List (Field Deployable) :=
  [ structField "commit" (commitFields tc) (fun s => s.Commit) (fun a s => { s with Commit := a }),
    anyField "coverage" (fun s => s.Coverage) (fun a s => { s with Coverage := a }),
    timeField tc "created_at" (fun s => s.CreatedAt) (fun a s => { s with CreatedAt := a }),
    timeField tc "finished_at" (fun s => s.FinishedAt) (fun a s => { s with FinishedAt := a }),
    intField "id" (fun s => s.ID) (fun a s => { s with ID := a }),
    stringField "name" (fun s => s.Name) (fun a s => { s with Name := a }),
    stringField "ref" (fun s => s.Ref) (fun a s => { s with Ref := a }),
    anyField "runner" (fun s => s.Runner) (fun a s => { s with Runner := a }),
    stringField "stage" (fun s => s.Stage) (fun a s => { s with Stage := a }),
    anyField "started_at" (fun s => s.StartedAt) (fun a s => { s with StartedAt := a }),
    stringField "status" (fun s => s.Status) (fun a s => { s with Status := a }),
    boolField "tag" (fun s => s.Tag) (fun a s => { s with Tag := a }),
    structField "user" (deployableUserFields tc) (fun s => s.User)
      (fun a s => { s with User := a }) ]

/-- The fields of `Deployment.Environment` (lines 106-110). -/
def environmentFields : List (Field Environment) :=
  [ stringField "external_url" (fun s => s.ExternalURL) (fun a s => { s with ExternalURL := a }),
    intField "id" (fun s => s.ID) (fun a s => { s with ID := a }),
    stringField "name" (fun s => s.Name) (fun a s => { s with Name := a }) ]

/-- The fields of `Deployment.User` (lines 115-122). -/
def userFields : List (Field User) :=
  [ stringField "avatar_url" (fun s => s.AvatarURL) (fun a s => { s with AvatarURL := a }),
    intField "id" (fun s => s.ID) (fun a s => { s with ID := a }),
    stringField "name" (fun s => s.Name) (fun a s => { s with Name := a }),
    stringField "state" (fun s => s.State) (fun a s => { s with State := a }),
    stringField "username" (fun s => s.Username) (fun a s => { s with Username := a }),
    stringField "web_url" (fun s => s.WebURL) (fun a s => { s with WebURL := a }) ]

/-- The fields of `Deployment` (lines 67-123). -/
def deploymentFields (tc : TimeJSON) : List (Field Deployment) :=
  [ timeField tc "created_at" (fun s => s.CreatedAt) (fun a s => { s with CreatedAt := a }),
    structField "deployable" (deployableFields tc) (fun s => s.Deployable)
      (fun a s => { s with Deployable := a }),
    structField "environment" environmentFields (fun s => s.Environment)
      (fun a s => { s with Environment := a }),
    intField "id" (fun s => s.ID) (fun a s => { s with ID := a }),
    intField "iid" (fun s => s.Iid) (fun a s => { s with Iid := a }),
    stringField "ref" (fun s => s.Ref) (fun a s => { s with Ref := a }),
    stringField "sha" (fun s => s.Sha) (fun a s => { s with Sha := a }),
    structField "user" userFields (fun s => s.User) (fun a s => { s with User := a }) ]

/-- Decoding one array element into a fresh `*Deployment`: `null` gives a nil
pointer, an object is decoded into a new zero `Deployment`. -/
def decodeElement (tc : TimeJSON) (v : JSON) : Option (Ptr Deployment) :=
  match v with
  | JSON.null => some none
  | JSON.obj ms =>
    match decodeMembers (deploymentFields tc) ms {} with
    | none => none
    | some d => some (some d)
  | _ => none

/-- Decoding the elements of an array, in order. -/
def decodeElements (tc : TimeJSON) : List JSON → Option (List (Ptr Deployment))
  | [] => some []
  | v :: rest =>
    match decodeElement tc v with
    | none => none
    | some p =>
      match decodeElements tc rest with
      | none => none
      | some ps => some (p :: ps)

/-- Go `json.Unmarshal(body, &d)` for `var d []*Deployment` (a nil slice), on a
scanned body: `null` leaves the slice nil, an array gives one element per item
(an empty array gives the empty, non-nil slice), anything else is an error. -/
def decodeDeployments (tc : TimeJSON) (body : JSON) : Option (Slice (Ptr Deployment)) :=
  match body with
  | JSON.null => some none
  | JSON.arr items =>
    match decodeElements tc items with
    | none => none
    | some ps => some (some ps)
  | _ => none

/-- Go `json.Marshal(d)` for a `Deployment`, as a JSON value. -/
def encodeDeployment (tc : TimeJSON) (d : Deployment) : Option JSON :=
  match encodeMembers d (deploymentFields tc) with
  | none => none
  | some ms => some (JSON.obj ms)

/-- A `Deployment` with the loosely typed fields (`Coverage`, `Runner`,
`StartedAt`, `Bio`, `Location`) blanked: what is left are the strongly typed
fields. -/
def stronglyTyped (d : Deployment) : Deployment :=
  { d with
    Deployable :=
      { d.Deployable with
        Coverage := JSON.null
        Runner := JSON.null
        StartedAt := JSON.null
        User := { d.Deployable.User with Bio := JSON.null, Location := JSON.null } } }

/-- A time that `MarshalJSON` writes to a text which `UnmarshalJSON` reads back
as the same time. -/
def Stable (tc : TimeJSON) (t : Time) : Prop :=
  ∃ x, tc.MarshalJSON t = some x ∧ tc.UnmarshalJSON x = some t

/-- What is taken for granted of the JSON methods of `time.Time`: the zero time
and every time read from JSON are stable. -/
def TimeJSON.Faithful (tc : TimeJSON) : Prop :=
  Stable tc {} ∧ ∀ x t, tc.UnmarshalJSON x = some t → Stable tc t

/-- The `Commit` values whose time can be written and read back. -/
def DeployableCommit.Valid (tc : TimeJSON) (c : DeployableCommit) : Prop :=
  Stable tc c.CreatedAt

/-- The `Deployable.User` values whose time is stable, whose `int` fits and
whose loosely typed fields hold storable values. -/
def DeployableUser.Valid (tc : TimeJSON) (u : DeployableUser) : Prop :=
  Stable tc u.CreatedAt ∧ inInt u.ID = true ∧ u.Bio.storable = true ∧
    u.Location.storable = true

/-- The `Deployable` values whose times are stable, whose `int` fits and whose
loosely typed fields hold storable values. -/
def Deployable.Valid (tc : TimeJSON) (p : Deployable) : Prop :=
  DeployableCommit.Valid tc p.Commit ∧ Stable tc p.CreatedAt ∧ Stable tc p.FinishedAt ∧
    inInt p.ID = true ∧ DeployableUser.Valid tc p.User ∧ p.Coverage.storable = true ∧
    p.Runner.storable = true ∧ p.StartedAt.storable = true

/-- The `Environment` values whose `int` fits. -/
def Environment.Valid (e : Environment) : Prop := inInt e.ID = true

/-- The `User` values whose `int` fits. -/
def User.Valid (u : User) : Prop := inInt u.ID = true

/-- The `Deployment` values a Go program can hold after decoding: every `int`
fits in 64 bits, every time is stable, every `interface{}` holds a storable
value. -/
def Deployment.Valid (tc : TimeJSON) (d : Deployment) : Prop :=
  Stable tc d.CreatedAt ∧ Deployable.Valid tc d.Deployable ∧ Environment.Valid d.Environment ∧
    inInt d.ID = true ∧ inInt d.Iid = true ∧ User.Valid d.User

/-- A codec for `time.Time` that knows two instants, for examples. -/
def sampleTimeJSON : TimeJSON where
  UnmarshalJSON := fun x =>
    if x = "0001-01-01T00:00:00Z" then some {}
    else if x = "2017-06-01T12:00:00Z" then some { sec := 63631915200 }
    else none
  MarshalJSON := fun t =>
    if t = {} then some "0001-01-01T00:00:00Z"
    else if t = { sec := 63631915200 } then some "2017-06-01T12:00:00Z"
    else none

/-- The members of the deployment object of the specification, section 8. -/
def specEnvironmentMembers : List (String × JSON) :=
  [("id", JSON.int 5), ("name", JSON.str "production"),
    ("external_url", JSON.str "https://example.com")]

/-- The `deployable` member of the object of the specification. -/
def specDeployableMembers : List (String × JSON) :=
  [("id", JSON.int 10), ("status", JSON.str "success"),
    ("commit", JSON.obj [("id", JSON.str "abc123"), ("short_id", JSON.str "abc123"),
      ("title", JSON.str "fix"), ("message", JSON.str "fix"),
      ("author_name", JSON.str "A"), ("author_email", JSON.str "a@x.com")]),
    ("user", JSON.obj [("id", JSON.int 2), ("username", JSON.str "a")])]

/-- The members of the deployment object of the specification. -/
def specDeploymentMembers : List (String × JSON) :=
  [ ("id", JSON.int 1), ("iid", JSON.int 1), ("ref", JSON.str "main"),
    ("sha", JSON.str "abc123"),
    ("environment", JSON.obj specEnvironmentMembers),
    ("deployable", JSON.obj specDeployableMembers),
    ("user", JSON.obj [("id", JSON.int 2), ("username", JSON.str "a")]) ]

/-- The deployment object of the specification, section 8. -/
def specDeployment : JSON := JSON.obj specDeploymentMembers

/-- The `Deployment` the object of the specification decodes to. -/
def specDecoded : Deployment :=
  { ID := 1, Iid := 1, Ref := "main", Sha := "abc123",
    Environment := { ID := 5, Name := "production", ExternalURL := "https://example.com" },
    Deployable :=
      { ID := 10, Status := "success",
        Commit := { ID := "abc123", ShortID := "abc123", Title := "fix", Message := "fix",
                    AuthorName := "A", AuthorEmail := "a@x.com" },
        User := { ID := 2, Username := "a" } },
    User := { ID := 2, Username := "a" } }

/-- A deployment object with timestamps, a loosely typed `coverage`, a key in
upper case and a key no field has. -/
def datedDeployment : JSON :=
  JSON.obj
    [ ("ID", JSON.int 7), ("created_at", JSON.str "2017-06-01T12:00:00Z"),
      ("deployable", JSON.obj [("coverage", JSON.float 985 (-1)), ("tag", JSON.bool true),
        ("finished_at", JSON.str "2017-06-01T12:00:00Z"), ("pipeline", JSON.null)]),
      ("environment", JSON.null) ]

/-- The `Deployment` that `datedDeployment` decodes to. -/
def datedDecoded : Deployment :=
  { ID := 7, CreatedAt := { sec := 63631915200 },
    Deployable := { Coverage := JSON.float 985 (-1), Tag := true,
                    FinishedAt := { sec := 63631915200 } } }

/-! ## The query string of the options -/

/-- Modelled from the spec: the encoding of a `*string` option tagged
`url:"key,omitempty"` (the encoder is called by `NewRequest`, outside `src/`):
a nil pointer is omitted, a set one gives the key with its value. -/
def queryPtr (key : String) (v : Option GoString) : List (GoString × GoString) :=
  match v with
  | none => []
  | some x => [(str key, x)]

/-- Modelled from the spec: the encoding of an `int` option with `omitempty`:
the zero value is omitted, another one gives the key with its decimal text. -/
def queryInt (key : String) (n : Int) : List (GoString × GoString) :=
  if n = 0 then [] else [(str key, Itoa n)]

/-- Modelled from the spec: the query parameters of a `ListDeploymentsOptions`
value, computed by `NewRequest` outside `src/`. The keys of `OrderBy`, `Sort` and
`Search` are the `url` tags of lines 38-40; `page` and `per_page` are the keys
section 6 of the spec gives to the embedded `ListOptions`. "Unset fields are
omitted from the outgoing query string entirely". -/
def queryValues (opt : ListDeploymentsOptions) : List (GoString × GoString) :=
  queryPtr "order_by" opt.OrderBy ++ queryPtr "sort" opt.Sort_ ++ queryPtr "search" opt.Search ++
    queryInt "page" opt.Page ++ queryInt "per_page" opt.PerPage

/-- The order of Go strings: bytewise lexicographic. -/
def keyLE : GoString → GoString → Bool
  | [], _ => true
  | _ :: _, [] => false
  | x :: xs, y :: ys => decide (x.val < y.val) || (decide (x = y) && keyLE xs ys)

/-- Insertion into a list of parameters sorted by key. -/
def insertByKey (p : GoString × GoString) : List (GoString × GoString) →
    List (GoString × GoString)
  | [] => [p]
  | q :: rest => if keyLE p.1 q.1 then p :: q :: rest else q :: insertByKey p rest

/-- Parameters sorted by key. -/
def sortByKey : List (GoString × GoString) → List (GoString × GoString)
  | [] => []
  | p :: rest => insertByKey p (sortByKey rest)

/-- Go `url.Values.Encode`: `key=value` pairs, both sides query-escaped, sorted
by key and joined by `&`. -/
def Encode (vs : List (GoString × GoString)) : GoString :=
  (str "&").intercalate ((sortByKey vs).map (fun p => QueryEscape p.1 ++ str "=" ++ QueryEscape p.2))

/-- Modelled from the spec: the query string sent for an options value. -/
def RawQuery (opt : ListDeploymentsOptions) : GoString := Encode (queryValues opt)

/-! ## Reading the call log -/

section Log

variable {Q F : Type}

/-- The path of a `NewRequest` call. -/
def Call.path? : Call Q F → Option GoString
  | Call.NewRequest _ path _ _ => some path
  | Call.Do _ _ => none

/-- The paths of the requests built, in call order. -/
def requestPaths (log : List (Call Q F)) : List GoString := log.filterMap Call.path?

/-- Whether a call is the outbound network call `Do`. -/
def Call.isDo : Call Q F → Bool
  | Call.NewRequest _ _ _ _ => false
  | Call.Do _ _ => true

/-- The number of outbound network calls in a log. -/
def doCalls (log : List (Call Q F)) : Nat := (log.filter Call.isDo).length

end Log

/-! ## Sample clients -/

/-- A client whose calls all succeed: the request is the method and the path,
the response is a status code, the state counts the calls. -/
def okMethods : ClientMethods GoString Nat Unit Nat where
  NewRequest := fun method path _ _ st => ((some (method ++ str " " ++ path), none), st + 1)
  Do := fun _ _ st => (⟨some [], some 200, none⟩, st + 1)

/-- A client whose `Do` meets HTTP 404 after it has written one record into
the decode target. -/
def notFoundMethods : ClientMethods GoString Nat Unit Nat where
  NewRequest := fun method path _ _ st => ((some (method ++ str " " ++ path), none), st + 1)
  Do := fun _ _ st =>
    (⟨some [some {}], some 404, some (Error.HTTPStatusError 404 "404 Not Found")⟩, st + 1)

/-- A client whose `NewRequest` fails. -/
def badRequestMethods : ClientMethods GoString Nat Unit Nat where
  NewRequest := fun _ _ _ _ st => ((none, some (Error.TransportError "parse base URL")), st)
  Do := fun _ _ st => (⟨some [], some 200, none⟩, st + 1)

/-! # Theorems -/

/-! ### Facts about `QueryEscape` -/

theorem byte_val (n : Nat) : (byte n).val = n % 256 := rfl

theorem shouldEscape_eq_false (c : Byte) :
    shouldEscape c = false ↔
      ((97 ≤ c.val ∧ c.val ≤ 122) ∨ (65 ≤ c.val ∧ c.val ≤ 90) ∨ (48 ≤ c.val ∧ c.val ≤ 57) ∨
        c.val = 45 ∨ c.val = 95 ∨ c.val = 46 ∨ c.val = 126) := by
  unfold shouldEscape
  split_ifs <;> simp <;> omega

theorem escapeByte_of_keep (c : Byte) (h : shouldEscape c = false) : escapeByte c = [c] := by
  have h2 := (shouldEscape_eq_false c).1 h
  have h32 : ¬ c.val = 32 := by omega
  simp [escapeByte, h32, h]

theorem flatMap_escapeByte_of_keep (s : GoString) (h : ∀ c ∈ s, shouldEscape c = false) :
    s.flatMap escapeByte = s := by
  induction s with
  | nil => rfl
  | cons c t ih =>
    have hc : shouldEscape c = false := h c (List.mem_cons_self _ _)
    have ht : ∀ x ∈ t, shouldEscape x = false := fun x hx => h x (List.mem_cons_of_mem _ hx)
    simp [List.flatMap_cons, escapeByte_of_keep c hc, ih ht]

/-- The two-pass `escape` of the library is the byte-wise rewriting. -/
theorem escape_eq_flatMap (s : GoString) : escape s = s.flatMap escapeByte := by
  unfold escape
  simp only
  split_ifs with h
  · obtain ⟨h1, h2⟩ := h
    rw [List.length_eq_zero, List.filter_eq_nil_iff] at h1 h2
    symm
    apply flatMap_escapeByte_of_keep
    intro c hc
    have a := h1 c hc
    have b := h2 c hc
    by_cases h32 : c.val = 32 <;> simp [h32] at a b <;> assumption
  · rfl

theorem upperhex_val (i : Nat) (h : i < 16) :
    (upperhex i).val = if i < 10 then 48 + i else 55 + i := by
  unfold upperhex
  split_ifs <;> simp [byte_val] <;> omega

theorem upperhex_inj (i j : Nat) (hi : i < 16) (hj : j < 16) (h : upperhex i = upperhex j) :
    i = j := by
  have h2 := congrArg Fin.val h
  rw [upperhex_val i hi, upperhex_val j hj] at h2
  split_ifs at h2 <;> omega

/-- Every byte `escapeByte` writes is an unreserved character, `+` or `%`. -/
theorem escapeByte_bytes (c b : Byte) (h : b ∈ escapeByte c) :
    shouldEscape b = false ∨ b.val = 43 ∨ b.val = 37 := by
  unfold escapeByte at h
  split_ifs at h with h1 h2
  · simp at h; subst h; right; left; rfl
  · simp at h
    have hd : c.val / 16 < 16 := by omega
    have hm : c.val % 16 < 16 := by omega
    rcases h with h | h | h
    · subst h; right; right; rfl
    · subst h; left
      rw [shouldEscape_eq_false, upperhex_val _ hd]
      split_ifs <;> omega
    · subst h; left
      rw [shouldEscape_eq_false, upperhex_val _ hm]
      split_ifs <;> omega
  · simp at h; subst h; left; simpa using h2

/-- The output of `escapeByte` is a prefix code: what it writes for one byte
determines that byte and where its output ends. -/
theorem escapeByte_append_inj (c d : Byte) (r t : GoString)
    (h : escapeByte c ++ r = escapeByte d ++ t) : c = d ∧ r = t := by
  have kc := shouldEscape_eq_false c
  have kd := shouldEscape_eq_false d
  unfold escapeByte at h
  split_ifs at h with c1 d1 d2 c2 d1 d2 d1 d2
  · simp at h; exact ⟨Fin.ext (by omega), h⟩
  · simp at h; have := congrArg Fin.val h.1; simp [byte_val] at this
  · simp at h
    have e := congrArg Fin.val h.1
    simp [byte_val] at e
    have : shouldEscape d = false := by simpa using d2
    have := kd.1 this
    omega
  · simp at h; have := congrArg Fin.val h.1; simp [byte_val] at this
  · simp at h
    have hc1 : c.val / 16 < 16 := by omega
    have hc2 : c.val % 16 < 16 := by omega
    have hd1 : d.val / 16 < 16 := by omega
    have hd2 : d.val % 16 < 16 := by omega
    have e1 := upperhex_inj _ _ hc1 hd1 h.1
    have e2 := upperhex_inj _ _ hc2 hd2 h.2.1
    exact ⟨Fin.ext (by omega), h.2.2⟩
  · simp at h
    have e := congrArg Fin.val h.1
    simp [byte_val] at e
    have : shouldEscape d = false := by simpa using d2
    have := kd.1 this
    omega
  · simp at h
    have e := congrArg Fin.val h.1
    simp [byte_val] at e
    have : shouldEscape c = false := by simpa using c2
    have := kc.1 this
    omega
  · simp at h
    have e := congrArg Fin.val h.1
    simp [byte_val] at e
    have : shouldEscape c = false := by simpa using c2
    have := kc.1 this
    omega
  · simp at h; exact h

theorem escapeByte_ne_nil (c : Byte) : escapeByte c ≠ [] := by
  unfold escapeByte
  split_ifs <;> simp

theorem flatMap_escapeByte_inj (s t : GoString)
    (h : s.flatMap escapeByte = t.flatMap escapeByte) : s = t := by
  induction s generalizing t with
  | nil =>
    cases t with
    | nil => rfl
    | cons d t =>
      simp only [List.flatMap_nil, List.flatMap_cons] at h
      have := escapeByte_ne_nil d
      cases hd : escapeByte d with
      | nil => exact absurd hd this
      | cons x xs => rw [hd] at h; simp at h
  | cons c s ih =>
    cases t with
    | nil =>
      simp only [List.flatMap_nil, List.flatMap_cons] at h
      have := escapeByte_ne_nil c
      cases hc : escapeByte c with
      | nil => exact absurd hc this
      | cons x xs => rw [hc] at h; simp at h
    | cons d t =>
      simp only [List.flatMap_cons] at h
      obtain ⟨h1, h2⟩ := escapeByte_append_inj c d _ _ h
      rw [h1, ih t h2]

/-- `QueryEscape` is injective. -/
theorem QueryEscape_inj (s t : GoString) (h : QueryEscape s = QueryEscape t) : s = t := by
  unfold QueryEscape at h
  rw [escape_eq_flatMap, escape_eq_flatMap] at h
  exact flatMap_escapeByte_inj s t h

/-- Every byte of an escaped string is an unreserved character, `+` or `%`. -/
theorem QueryEscape_bytes (s : GoString) (b : Byte) (h : b ∈ QueryEscape s) :
    shouldEscape b = false ∨ b.val = 43 ∨ b.val = 37 := by
  unfold QueryEscape at h
  rw [escape_eq_flatMap, List.mem_flatMap] at h
  obtain ⟨c, _, hb⟩ := h
  exact escapeByte_bytes c b hb

/-! ## `ListDeployments` -/

section ListDeploymentsFacts

variable {Q R F σ : Type}

/-- The path `ListDeployments` builds for a resolved identifier. -/
theorem Sprintf_projects_deployments_eq (project : GoString) :
    Sprintf_projects_deployments project = str "projects/" ++ project ++ str "/deployments" :=
  rfl

/-- Exit 1 of `ListDeployments`: `parseID` fails. -/
theorem ListDeployments_exit_parseID (parseID : PID → GoString × Option Error)
    (m : ClientMethods Q R F σ) (c : Client Q F σ) (pid : PID) (opt : ListDeploymentsOptions)
    (options : List F) (e : Error) (h : (parseID pid).2 = some e) :
    ListDeployments parseID m c pid opt options = ((none, none, some e), c) := by
  unfold ListDeployments
  rcases hp : parseID pid with ⟨project, err⟩
  rw [hp] at h
  simp only at h
  subst h
  rfl

/-- Exit 2 of `ListDeployments`: `NewRequest` fails. -/
theorem ListDeployments_exit_NewRequest (parseID : PID → GoString × Option Error)
    (m : ClientMethods Q R F σ) (c : Client Q F σ) (pid : PID) (opt : ListDeploymentsOptions)
    (options : List F) (s : GoString) (req : Ptr Q) (e : Error) (st1 : σ)
    (hp : parseID pid = (s, none))
    (hn : m.NewRequest (str "GET") (Sprintf_projects_deployments (QueryEscape s)) opt options
      c.state = ((req, some e), st1)) :
    ListDeployments parseID m c pid opt options =
      ((none, none, some e),
        ⟨st1, c.log ++ [Call.NewRequest (str "GET")
          (Sprintf_projects_deployments (QueryEscape s)) opt options]⟩) := by
  unfold ListDeployments
  rw [hp]
  simp only [Client.NewRequest, hn]

/-- Exit 3 of `ListDeployments`: `Do` fails. -/
theorem ListDeployments_exit_Do (parseID : PID → GoString × Option Error)
    (m : ClientMethods Q R F σ) (c : Client Q F σ) (pid : PID) (opt : ListDeploymentsOptions)
    (options : List F) (s : GoString) (req : Ptr Q) (st1 st2 : σ)
    (tgt : Slice (Ptr Deployment)) (resp : Ptr R) (e : Error)
    (hp : parseID pid = (s, none))
    (hn : m.NewRequest (str "GET") (Sprintf_projects_deployments (QueryEscape s)) opt options
      c.state = ((req, none), st1))
    (hd : m.Do req none st1 = (⟨tgt, resp, some e⟩, st2)) :
    ListDeployments parseID m c pid opt options =
      ((none, resp, some e),
        ⟨st2, c.log ++ [Call.NewRequest (str "GET")
          (Sprintf_projects_deployments (QueryEscape s)) opt options] ++
          [Call.Do req none]⟩) := by
  unfold ListDeployments
  rw [hp]
  simp only [Client.NewRequest, Client.Do, hn, hd]

/-- Exit 4 of `ListDeployments`: everything succeeds. -/
theorem ListDeployments_exit_ok (parseID : PID → GoString × Option Error)
    (m : ClientMethods Q R F σ) (c : Client Q F σ) (pid : PID) (opt : ListDeploymentsOptions)
    (options : List F) (s : GoString) (req : Ptr Q) (st1 st2 : σ)
    (tgt : Slice (Ptr Deployment)) (resp : Ptr R)
    (hp : parseID pid = (s, none))
    (hn : m.NewRequest (str "GET") (Sprintf_projects_deployments (QueryEscape s)) opt options
      c.state = ((req, none), st1))
    (hd : m.Do req none st1 = (⟨tgt, resp, none⟩, st2)) :
    ListDeployments parseID m c pid opt options =
      ((tgt, resp, none),
        ⟨st2, c.log ++ [Call.NewRequest (str "GET")
          (Sprintf_projects_deployments (QueryEscape s)) opt options] ++
          [Call.Do req none]⟩) := by
  unfold ListDeployments
  rw [hp]
  simp only [Client.NewRequest, Client.Do, hn, hd]

/-- The client after `ListDeployments`, once `parseID` has succeeded: the
state is the one the client's own methods produced, the log has grown by the
`NewRequest` call and, when that call succeeded, by one `Do` call. -/
theorem ListDeployments_client (parseID : PID → GoString × Option Error)
    (m : ClientMethods Q R F σ) (c : Client Q F σ) (pid : PID) (opt : ListDeploymentsOptions)
    (options : List F) (s : GoString) (hp : parseID pid = (s, none)) :
    (ListDeployments parseID m c pid opt options).2 =
      match m.NewRequest (str "GET") (Sprintf_projects_deployments (QueryEscape s)) opt options
          c.state with
      | ((_, some _), st1) =>
        ⟨st1, c.log ++ [Call.NewRequest (str "GET")
          (Sprintf_projects_deployments (QueryEscape s)) opt options]⟩
      | ((req, none), st1) =>
        ⟨(m.Do req none st1).2, c.log ++ [Call.NewRequest (str "GET")
          (Sprintf_projects_deployments (QueryEscape s)) opt options] ++
          [Call.Do req none]⟩ := by
  rcases hn : m.NewRequest (str "GET") (Sprintf_projects_deployments (QueryEscape s))
    opt options c.state with ⟨⟨req, _ | e⟩, st1⟩
  · rcases hd : m.Do req none st1 with ⟨⟨tgt, resp, _ | e⟩, st2⟩
    · rw [ListDeployments_exit_ok parseID m c pid opt options s req st1 st2 tgt resp hp hn hd]
      simp only [hd]
    · rw [ListDeployments_exit_Do parseID m c pid opt options s req st1 st2 tgt resp e hp hn hd]
      simp only [hd]
  · rw [ListDeployments_exit_NewRequest parseID m c pid opt options s req e st1 hp hn]

theorem requestPaths_append (l1 l2 : List (Call Q F)) :
    requestPaths (l1 ++ l2) = requestPaths l1 ++ requestPaths l2 := by
  simp [requestPaths, List.filterMap_append]

theorem doCalls_append (l1 l2 : List (Call Q F)) :
    doCalls (l1 ++ l2) = doCalls l1 + doCalls l2 := by
  simp [doCalls, List.filter_append]

/-- The request paths in the log after `ListDeployments`, once `parseID` has
succeeded. -/
theorem ListDeployments_requestPaths (parseID : PID → GoString × Option Error)
    (m : ClientMethods Q R F σ) (c : Client Q F σ) (pid : PID) (opt : ListDeploymentsOptions)
    (options : List F) (s : GoString) (hp : parseID pid = (s, none)) :
    requestPaths (ListDeployments parseID m c pid opt options).2.log =
      requestPaths c.log ++ [Sprintf_projects_deployments (QueryEscape s)] := by
  rw [ListDeployments_client parseID m c pid opt options s hp]
  rcases m.NewRequest (str "GET") (Sprintf_projects_deployments (QueryEscape s))
    opt options c.state with ⟨⟨req, _ | e⟩, st1⟩ <;>
    simp [requestPaths_append] <;> simp [requestPaths, Call.path?]

/-- What `escapeByte` writes, next to the percent-encoding of the specification:
the two differ on the space alone. -/
theorem escapeByte_eq_pctEncodeByte (c : Byte) :
    escapeByte c = if c.val = 32 then [byte 43] else pctEncodeByte c := by
  have k := shouldEscape_eq_false c
  unfold escapeByte pctEncodeByte
  by_cases h32 : c.val = 32
  · simp [h32]
  · simp only [h32, if_false]
    cases hs : shouldEscape c with
    | false => rw [if_pos (k.1 hs)]; simp
    | true =>
      have : ¬ ((97 ≤ c.val ∧ c.val ≤ 122) ∨ (65 ≤ c.val ∧ c.val ≤ 90) ∨
          (48 ≤ c.val ∧ c.val ≤ 57) ∨ c.val = 45 ∨ c.val = 95 ∨ c.val = 46 ∨ c.val = 126) := by
        intro h
        rw [k.2 h] at hs
        exact Bool.noConfusion hs
      rw [if_neg this]; simp

theorem QueryEscape_eq (s : GoString) :
    QueryEscape s = s.flatMap (fun b => if b.val = 32 then [byte 43] else pctEncodeByte b) := by
  unfold QueryEscape
  rw [escape_eq_flatMap]
  congr 1
  funext b
  exact escapeByte_eq_pctEncodeByte b

theorem QueryEscape_eq_pctEncode (s : GoString) (hs : ∀ b ∈ s, b.val ≠ 32) :
    QueryEscape s = pctEncode s := by
  rw [QueryEscape_eq]
  unfold pctEncode
  induction s with
  | nil => rfl
  | cons b t ih =>
    have hb : b.val ≠ 32 := hs b (List.mem_cons_self _ _)
    have ht : ∀ x ∈ t, x.val ≠ 32 := fun x hx => hs x (List.mem_cons_of_mem _ hx)
    simp only [List.flatMap_cons, hb, if_false]
    rw [ih ht]

/-- C1: when `parseID` returns an error `e`, `ListDeployments` returns
`(nil, nil, e)` and leaves the client as it was: no `NewRequest`, no `Do`. -/
theorem ListDeployments_parseID_error (parseID : PID → GoString × Option Error)
    (m : ClientMethods Q R F σ) (c : Client Q F σ) (pid : PID) (opt : ListDeploymentsOptions)
    (options : List F) (e : Error) (h : (parseID pid).2 = some e) :
    ListDeployments parseID m c pid opt options = ((none, none, some e), c) ∧
      (ListDeployments parseID m c pid opt options).2.log = c.log := by
  have key := ListDeployments_exit_parseID parseID m c pid opt options e h
  exact ⟨key, by rw [key]⟩

theorem ListDeployments_parseID_error_witness :
    (parseID (PID.other "float64")).2 = some Error.InvalidIdentifier ∧
      (ListDeployments parseID okMethods ⟨0, []⟩ (PID.other "float64") {} [] =
          ((none, none, some Error.InvalidIdentifier), ⟨0, []⟩) ∧
        (ListDeployments parseID okMethods ⟨0, []⟩ (PID.other "float64") {} []).2.log = []) :=
  ⟨rfl, ListDeployments_parseID_error parseID okMethods ⟨0, []⟩ (PID.other "float64") {} []
    Error.InvalidIdentifier rfl⟩

/-- C2: an identifier that resolves to the empty string is rejected by `parseID`
with `InvalidIdentifier`; `ListDeployments` then returns no records and leaves
the client untouched, so no request (for `projects//deployments` or any other
path) is built and `Do` is not called. -/
theorem ListDeployments_empty_identifier (m : ClientMethods Q R F σ) (c : Client Q F σ)
    (pid : PID) (opt : ListDeploymentsOptions) (options : List F)
    (h : resolveID pid = some []) :
    ListDeployments parseID m c pid opt options =
        ((none, none, some Error.InvalidIdentifier), c) ∧
      requestPaths (ListDeployments parseID m c pid opt options).2.log = requestPaths c.log ∧
      doCalls (ListDeployments parseID m c pid opt options).2.log = doCalls c.log := by
  have hp : parseID pid = ([], some Error.InvalidIdentifier) := by
    simp [parseID, h]
  have key : ListDeployments parseID m c pid opt options =
      ((none, none, some Error.InvalidIdentifier), c) := by
    unfold ListDeployments
    rw [hp]
  exact ⟨key, by rw [key], by rw [key]⟩

theorem ListDeployments_empty_identifier_witness :
    resolveID (PID.string (str "")) = some [] ∧
      (ListDeployments parseID okMethods ⟨0, []⟩ (PID.string (str "")) {} [] =
          ((none, none, some Error.InvalidIdentifier), ⟨0, []⟩) ∧
        requestPaths (ListDeployments parseID okMethods ⟨0, []⟩ (PID.string (str "")) {} []).2.log
          = requestPaths ([] : List (Call GoString Unit)) ∧
        doCalls (ListDeployments parseID okMethods ⟨0, []⟩ (PID.string (str "")) {} []).2.log
          = doCalls ([] : List (Call GoString Unit))) :=
  ⟨rfl, ListDeployments_empty_identifier okMethods ⟨0, []⟩ (PID.string (str "")) {} [] rfl⟩

/-- C3 as stated fails: for the identifier `a b` the path handed to
`NewRequest` is `projects/a+b/deployments`, not `projects/a%20b/deployments`. -/
theorem request_path_space_counterexample :
    parseID (PID.string (str "a b")) = (str "a b", none) ∧
      pctEncode (str "a b") = str "a%20b" ∧
      requestPaths (ListDeployments parseID okMethods ⟨0, []⟩ (PID.string (str "a b")) {} []).2.log
        = [str "projects/a+b/deployments"] ∧
      requestPaths (ListDeployments parseID okMethods ⟨0, []⟩ (PID.string (str "a b")) {} []).2.log
        ≠ [str "projects/" ++ pctEncode (str "a b") ++ str "/deployments"] := by
  decide

/-- C3 (amended): for an identifier that `parseID` resolves to `s`, the one path
`ListDeployments` hands to `NewRequest` is
`"projects/" ++ QueryEscape s ++ "/deployments"`, where `QueryEscape` writes a
space as `+` and every other byte as the percent-encoding of the specification
does; the two encodings agree on identifiers without a space. So
`namespace/project` gives `projects/namespace%2Fproject/deployments` and 42 gives
`projects/42/deployments`. -/
theorem ListDeployments_request_path (parseID : PID → GoString × Option Error)
    (m : ClientMethods Q R F σ) (c : Client Q F σ) (pid : PID) (opt : ListDeploymentsOptions)
    (options : List F) (s : GoString) (hp : parseID pid = (s, none)) :
    requestPaths (ListDeployments parseID m c pid opt options).2.log =
        requestPaths c.log ++ [str "projects/" ++ QueryEscape s ++ str "/deployments"] ∧
      QueryEscape s = s.flatMap (fun b => if b.val = 32 then [byte 43] else pctEncodeByte b) ∧
      ((∀ b ∈ s, b.val ≠ 32) → QueryEscape s = pctEncode s) ∧
      QueryEscape (str "namespace/project") = str "namespace%2Fproject" ∧
      QueryEscape (Itoa 42) = str "42" := by
  exact ⟨ListDeployments_requestPaths parseID m c pid opt options s hp, QueryEscape_eq s,
    QueryEscape_eq_pctEncode s, by decide, by decide⟩

theorem ListDeployments_request_path_witness :
    parseID (PID.string (str "namespace/project")) = (str "namespace/project", none) ∧
      requestPaths (ListDeployments parseID okMethods ⟨0, []⟩
          (PID.string (str "namespace/project")) {} []).2.log =
        requestPaths ([] : List (Call GoString Unit)) ++
          [str "projects/" ++ QueryEscape (str "namespace/project") ++ str "/deployments"] :=
  ⟨by decide, (ListDeployments_request_path parseID okMethods ⟨0, []⟩
    (PID.string (str "namespace/project")) {} [] (str "namespace/project") (by decide)).1⟩

/-- C4: once the identifier is parsed, an error `e` of `NewRequest` gives
`(nil, nil, e)`, and an error `e` of `Do` gives `(nil, resp, e)` with the
response `Do` returned: the records are nil whatever `Do` wrote into the decode
target, and the error is the very value the client returned. -/
theorem ListDeployments_client_error (parseID : PID → GoString × Option Error)
    (m : ClientMethods Q R F σ) (c : Client Q F σ) (pid : PID) (opt : ListDeploymentsOptions)
    (options : List F) (s : GoString) (hp : parseID pid = (s, none)) :
    (∀ (req : Ptr Q) (e : Error) (st1 : σ),
        m.NewRequest (str "GET") (str "projects/" ++ QueryEscape s ++ str "/deployments")
          opt options c.state = ((req, some e), st1) →
        (ListDeployments parseID m c pid opt options).1 = (none, none, some e)) ∧
      (∀ (req : Ptr Q) (st1 st2 : σ) (tgt : Slice (Ptr Deployment)) (resp : Ptr R) (e : Error),
        m.NewRequest (str "GET") (str "projects/" ++ QueryEscape s ++ str "/deployments")
          opt options c.state = ((req, none), st1) →
        m.Do req none st1 = (⟨tgt, resp, some e⟩, st2) →
        (ListDeployments parseID m c pid opt options).1 = (none, resp, some e)) := by
  constructor
  · intro req e st1 hn
    rw [ListDeployments_exit_NewRequest parseID m c pid opt options s req e st1 hp hn]
  · intro req st1 st2 tgt resp e hn hd
    rw [ListDeployments_exit_Do parseID m c pid opt options s req st1 st2 tgt resp e hp hn hd]

theorem ListDeployments_client_error_witness :
    parseID (PID.int 42) = (str "42", none) ∧
      (ListDeployments parseID notFoundMethods ⟨0, []⟩ (PID.int 42) {} []).1 =
        (none, some 404, some (Error.HTTPStatusError 404 "404 Not Found")) ∧
      (ListDeployments parseID badRequestMethods ⟨0, []⟩ (PID.int 42) {} []).1 =
        (none, none, some (Error.TransportError "parse base URL")) :=
  ⟨by decide,
    (ListDeployments_client_error parseID notFoundMethods ⟨0, []⟩ (PID.int 42) {} []
      (str "42") (by decide)).2 (some (str "GET projects/42/deployments")) 1 2
      (some [some {}]) (some 404) (Error.HTTPStatusError 404 "404 Not Found") rfl rfl,
    (ListDeployments_client_error parseID badRequestMethods ⟨0, []⟩ (PID.int 42) {} []
      (str "42") (by decide)).1 none (Error.TransportError "parse base URL") 0 rfl⟩

/-- C7: with the shared client as a log of calls, one invocation of
`ListDeployments` adds at most one `Do`; when `parseID` and `NewRequest` succeed
it adds exactly the `NewRequest` call with method `GET` followed by one `Do` call
on the request that `NewRequest` returned and on a nil decode target, whether
or not `Do` fails; and the client state afterwards is the one the client's own
methods left (untouched when `parseID` fails). -/
theorem ListDeployments_calls (parseID : PID → GoString × Option Error)
    (m : ClientMethods Q R F σ) (c : Client Q F σ) (pid : PID) (opt : ListDeploymentsOptions)
    (options : List F) :
    doCalls (ListDeployments parseID m c pid opt options).2.log ≤ doCalls c.log + 1 ∧
      (∀ e, (parseID pid).2 = some e → (ListDeployments parseID m c pid opt options).2 = c) ∧
      (∀ (s : GoString) (req : Ptr Q) (e : Error) (st1 : σ), parseID pid = (s, none) →
        m.NewRequest (str "GET") (str "projects/" ++ QueryEscape s ++ str "/deployments")
          opt options c.state = ((req, some e), st1) →
        (ListDeployments parseID m c pid opt options).2 =
          ⟨st1, c.log ++ [Call.NewRequest (str "GET")
            (str "projects/" ++ QueryEscape s ++ str "/deployments") opt options]⟩) ∧
      (∀ (s : GoString) (req : Ptr Q) (st1 : σ), parseID pid = (s, none) →
        m.NewRequest (str "GET") (str "projects/" ++ QueryEscape s ++ str "/deployments")
          opt options c.state = ((req, none), st1) →
        (ListDeployments parseID m c pid opt options).2 =
            ⟨(m.Do req none st1).2, c.log ++ [Call.NewRequest (str "GET")
              (str "projects/" ++ QueryEscape s ++ str "/deployments") opt options,
              Call.Do req none]⟩ ∧
          doCalls (ListDeployments parseID m c pid opt options).2.log = doCalls c.log + 1) := by
  have h2 : ∀ e, (parseID pid).2 = some e →
      (ListDeployments parseID m c pid opt options).2 = c := by
    intro e he
    rw [ListDeployments_exit_parseID parseID m c pid opt options e he]
  have h3 : ∀ (s : GoString) (req : Ptr Q) (e : Error) (st1 : σ), parseID pid = (s, none) →
      m.NewRequest (str "GET") (str "projects/" ++ QueryEscape s ++ str "/deployments")
        opt options c.state = ((req, some e), st1) →
      (ListDeployments parseID m c pid opt options).2 =
        ⟨st1, c.log ++ [Call.NewRequest (str "GET")
          (str "projects/" ++ QueryEscape s ++ str "/deployments") opt options]⟩ := by
    intro s req e st1 hp hn
    rw [ListDeployments_exit_NewRequest parseID m c pid opt options s req e st1 hp hn]
    rfl
  have h4 : ∀ (s : GoString) (req : Ptr Q) (st1 : σ), parseID pid = (s, none) →
      m.NewRequest (str "GET") (str "projects/" ++ QueryEscape s ++ str "/deployments")
        opt options c.state = ((req, none), st1) →
      (ListDeployments parseID m c pid opt options).2 =
          ⟨(m.Do req none st1).2, c.log ++ [Call.NewRequest (str "GET")
            (str "projects/" ++ QueryEscape s ++ str "/deployments") opt options,
            Call.Do req none]⟩ ∧
        doCalls (ListDeployments parseID m c pid opt options).2.log = doCalls c.log + 1 := by
    intro s req st1 hp hn
    have hc := ListDeployments_client parseID m c pid opt options s hp
    rw [Sprintf_projects_deployments_eq, hn] at hc
    simp only [List.append_assoc, List.singleton_append] at hc
    refine ⟨hc, ?_⟩
    rw [hc]
    simp [doCalls_append]
    simp [doCalls, Call.isDo]
  refine ⟨?_, h2, h3, h4⟩
  rcases hp : parseID pid with ⟨s, _ | e⟩
  · rcases hn : m.NewRequest (str "GET") (str "projects/" ++ QueryEscape s ++
      str "/deployments") opt options c.state with ⟨⟨req, _ | e⟩, st1⟩
    · rw [(h4 s req st1 hp hn).2]
    · rw [h3 s req e st1 hp hn]
      simp [doCalls_append]
      simp [doCalls, Call.isDo]
  · rw [h2 e (by rw [hp])]
    omega

/-- C10: the path is an injective function of the resolved identifier, the
escaped identifier holds no `/`, `?` or `#`, and the path holds exactly two `/`. -/
theorem request_path_injective :
    Function.Injective (fun s : GoString => str "projects/" ++ QueryEscape s ++
        str "/deployments") ∧
      (∀ s : GoString, byte 47 ∉ QueryEscape s ∧ byte 63 ∉ QueryEscape s ∧
        byte 35 ∉ QueryEscape s) ∧
      (∀ s : GoString, (str "projects/" ++ QueryEscape s ++ str "/deployments").count (byte 47)
        = 2) := by
  have hno : ∀ s : GoString, byte 47 ∉ QueryEscape s ∧ byte 63 ∉ QueryEscape s ∧
      byte 35 ∉ QueryEscape s := by
    intro s
    refine ⟨?_, ?_, ?_⟩ <;>
    · intro h
      rcases QueryEscape_bytes s _ h with h | h | h
      · exact absurd h (by decide)
      · exact absurd h (by decide)
      · exact absurd h (by decide)
  refine ⟨?_, hno, ?_⟩
  · intro s t h
    simp only [List.append_assoc] at h
    have h1 := List.append_cancel_left h
    have h2 := List.append_cancel_right h1
    exact QueryEscape_inj s t h2
  · intro s
    rw [List.count_append, List.count_append, List.count_eq_zero_of_not_mem (hno s).1]
    decide

/-- The guard against an empty identifier is in `parseID` alone: were `parseID`
to hand back the empty string without an error, `ListDeployments` would build
the request for `projects//deployments`. -/
theorem ListDeployments_no_guard_of_its_own (parseID : PID → GoString × Option Error)
    (m : ClientMethods Q R F σ) (c : Client Q F σ) (pid : PID) (opt : ListDeploymentsOptions)
    (options : List F) (h : parseID pid = ([], none)) :
    requestPaths (ListDeployments parseID m c pid opt options).2.log =
      requestPaths c.log ++ [str "projects//deployments"] := by
  unfold ListDeployments
  rw [h]
  simp only [Client.NewRequest, Client.Do]
  rcases hn : m.NewRequest (str "GET") (Sprintf_projects_deployments (QueryEscape []))
    opt options c.state with ⟨⟨req, _ | e⟩, st1⟩
  · simp only
    rcases hd : m.Do req none st1 with ⟨⟨tgt, resp, _ | e⟩, st2⟩ <;>
      simp [requestPaths, Call.path?, List.filterMap_append] <;> rfl
  · simp [requestPaths, Call.path?, List.filterMap_append]; rfl

theorem ListDeployments_no_guard_of_its_own_witness :
    requestPaths (ListDeployments (fun _ => (([] : GoString), (none : Option Error))) okMethods
        ⟨0, []⟩ (PID.string (str "")) {} []).2.log =
      requestPaths ([] : List (Call GoString Unit)) ++ [str "projects//deployments"] :=
  ListDeployments_no_guard_of_its_own (fun _ => ([], none)) okMethods ⟨0, []⟩
    (PID.string (str "")) {} [] rfl

end ListDeploymentsFacts

/-! ## `encoding/json`: decoding an object into a struct -/

section CodecFacts

variable {S T : Type}

theorem findField_mem (fields : List (Field S)) (key : String) (f : Field S)
    (h : findField fields key = some f) : f ∈ fields := by
  unfold findField at h
  split at h
  · next g hg =>
    cases h
    exact List.mem_of_find?_eq_some hg
  · exact List.mem_of_find?_eq_some h

theorem addressed_cons (fields : List (Field S)) (k : String) (v : JSON)
    (rest : List (String × JSON)) :
    addressed fields ((k, v) :: rest) =
      match findField fields k with
      | none => addressed fields rest
      | some f => f.name :: addressed fields rest := by
  unfold addressed
  cases h : findField fields k <;> simp [List.filterMap_cons, h]

/-- Decoding succeeds when every field decodes the values it accepts and every
member carries an accepted value. -/
theorem decodeMembers_total (fields : List (Field S))
    (hf : ∀ f ∈ fields, ∀ v, f.accepts v = true → ∀ s, ∃ s1, f.set v s = some s1)
    (ms : List (String × JSON)) (ht : typedMembers fields ms = true) (s : S) :
    ∃ r, decodeMembers fields ms s = some r := by
  induction ms generalizing s with
  | nil => exact ⟨s, rfl⟩
  | cons m rest ih =>
    obtain ⟨k, v⟩ := m
    simp only [typedMembers, List.all_cons, Bool.and_eq_true] at ht
    obtain ⟨h1, h2⟩ := ht
    have h2 : typedMembers fields rest = true := h2
    cases hfind : findField fields k with
    | none =>
      simp only [decodeMembers, hfind]
      exact ih h2 s
    | some f =>
      rw [hfind] at h1
      obtain ⟨s1, hs1⟩ := hf f (findField_mem fields k f hfind) v h1 s
      simp only [decodeMembers, hfind, hs1]
      exact ih h2 s1

/-- A component that no addressed field writes is left as it was. -/
theorem decodeMembers_frame {α : Type} (fields : List (Field S)) (g : S → α) (key0 : String)
    (hfr : ∀ f ∈ fields, f.name ≠ key0 → ∀ v s s1, f.set v s = some s1 → g s1 = g s)
    (ms : List (String × JSON)) (hno : key0 ∉ addressed fields ms) (s r : S)
    (h : decodeMembers fields ms s = some r) : g r = g s := by
  induction ms generalizing s with
  | nil =>
    simp only [decodeMembers, Option.some.injEq] at h
    rw [h]
  | cons m rest ih =>
    obtain ⟨k, v⟩ := m
    rw [addressed_cons] at hno
    cases hfind : findField fields k with
    | none =>
      rw [hfind] at hno
      simp only [decodeMembers, hfind] at h
      exact ih hno s h
    | some f =>
      rw [hfind] at hno
      simp only [List.mem_cons, not_or] at hno
      simp only [decodeMembers, hfind] at h
      cases hset : f.set v s with
      | none => rw [hset] at h; exact Option.noConfusion h
      | some s1 =>
        rw [hset] at h
        rw [ih hno.2 s1 h]
        exact hfr f (findField_mem fields k f hfind) (fun e => hno.1 e.symm) v s s1 hset

/-- The component a member writes holds, after decoding, what that member
wrote, provided no other member addresses the same field. -/
theorem decodeMembers_value {α : Type} (fields : List (Field S)) (g : S → α) (key0 : String)
    (f0 : Field S) (v0 : JSON) (a : α)
    (hfr : ∀ f ∈ fields, f.name ≠ key0 → ∀ v s s1, f.set v s = some s1 → g s1 = g s)
    (hfind : findField fields key0 = some f0) (hname : f0.name = key0)
    (heff : ∀ s s1, f0.set v0 s = some s1 → g s1 = a)
    (ms : List (String × JSON)) (hmem : (key0, v0) ∈ ms) (hnd : (addressed fields ms).Nodup)
    (s r : S) (h : decodeMembers fields ms s = some r) : g r = a := by
  induction ms generalizing s with
  | nil => exact absurd hmem (List.not_mem_nil _)
  | cons m rest ih =>
    obtain ⟨k, v⟩ := m
    rw [addressed_cons] at hnd
    rcases List.mem_cons.1 hmem with hhead | htail
    · have hk : key0 = k := congrArg Prod.fst hhead
      have hv : v0 = v := congrArg Prod.snd hhead
      subst hk
      subst hv
      rw [hfind] at hnd
      simp only [decodeMembers, hfind] at h
      cases hset : f0.set v0 s with
      | none => rw [hset] at h; exact Option.noConfusion h
      | some s1 =>
        rw [hset] at h
        dsimp only at h hnd
        have hno : key0 ∉ addressed fields rest := by
          rw [hname] at hnd
          exact (List.nodup_cons.1 hnd).1
        rw [decodeMembers_frame fields g key0 hfr rest hno s1 r h]
        exact heff s s1 hset
    · cases hfind1 : findField fields k with
      | none =>
        rw [hfind1] at hnd
        dsimp only at hnd
        simp only [decodeMembers, hfind1] at h
        exact ih htail hnd s h
      | some f =>
        rw [hfind1] at hnd
        simp only [decodeMembers, hfind1] at h
        cases hset : f.set v s with
        | none => rw [hset] at h; exact Option.noConfusion h
        | some s1 =>
          rw [hset] at h
          dsimp only at h hnd
          exact ih htail (List.nodup_cons.1 hnd).2 s1 h

/-- An invariant that every field keeps is kept by decoding. -/
theorem decodeMembers_invariant (fields : List (Field S)) (P : S → Prop)
    (hP : ∀ f ∈ fields, ∀ v s s1, P s → f.set v s = some s1 → P s1)
    (ms : List (String × JSON)) (s r : S) (hs : P s)
    (h : decodeMembers fields ms s = some r) : P r := by
  induction ms generalizing s with
  | nil =>
    simp only [decodeMembers, Option.some.injEq] at h
    rw [← h]; exact hs
  | cons m rest ih =>
    obtain ⟨k, v⟩ := m
    cases hfind : findField fields k with
    | none =>
      simp only [decodeMembers, hfind] at h
      exact ih s hs h
    | some f =>
      simp only [decodeMembers, hfind] at h
      cases hset : f.set v s with
      | none => rw [hset] at h; exact Option.noConfusion h
      | some s1 =>
        rw [hset] at h
        exact ih s1 (hP f (findField_mem fields k f hfind) v s s1 hs hset) h

theorem wellFormed_typed (fields : List (Field S)) (ms : List (String × JSON))
    (h : wellFormed fields ms = true) : typedMembers fields ms = true := by
  unfold wellFormed at h
  rw [Bool.and_eq_true] at h
  exact h.1

theorem wellFormed_nodup (fields : List (Field S)) (ms : List (String × JSON))
    (h : wellFormed fields ms = true) : (addressed fields ms).Nodup := by
  unfold wellFormed at h
  rw [Bool.and_eq_true] at h
  exact of_decide_eq_true h.2

/-- A member of a typed object that addresses a field carries an accepted value. -/
theorem typedMembers_mem (fields : List (Field S)) (ms : List (String × JSON))
    (h : typedMembers fields ms = true) (k : String) (v : JSON) (hm : (k, v) ∈ ms)
    (f : Field S) (hf : findField fields k = some f) : f.accepts v = true := by
  unfold typedMembers at h
  rw [List.all_eq_true] at h
  have := h (k, v) hm
  simp only [hf] at this
  exact this

/-! ### The kinds of field: what they accept they decode -/

theorem intField_total (name : String) (get : S → Int) (put : Int → S → S) (v : JSON)
    (h : (intField name get put).accepts v = true) (s : S) :
    ∃ s1, (intField name get put).set v s = some s1 := by
  cases v <;> simp_all [intField]

theorem stringField_total (name : String) (get : S → String) (put : String → S → S) (v : JSON)
    (h : (stringField name get put).accepts v = true) (s : S) :
    ∃ s1, (stringField name get put).set v s = some s1 := by
  cases v <;> simp_all [stringField]

theorem boolField_total (name : String) (get : S → Bool) (put : Bool → S → S) (v : JSON)
    (h : (boolField name get put).accepts v = true) (s : S) :
    ∃ s1, (boolField name get put).set v s = some s1 := by
  cases v <;> simp_all [boolField]

theorem timeField_total (tc : TimeJSON) (name : String) (get : S → Time) (put : Time → S → S)
    (v : JSON) (h : (timeField tc name get put).accepts v = true) (s : S) :
    ∃ s1, (timeField tc name get put).set v s = some s1 := by
  cases v with
  | str x =>
    simp only [timeField] at h ⊢
    cases hx : tc.UnmarshalJSON x with
    | none => rw [hx] at h; exact absurd h (by simp)
    | some t => exact ⟨_, rfl⟩
  | _ => simp_all [timeField]

theorem anyField_total (name : String) (get : S → JSON) (put : JSON → S → S) (v : JSON)
    (h : (anyField name get put).accepts v = true) (s : S) :
    ∃ s1, (anyField name get put).set v s = some s1 := by
  have hv : v.storable = true := h
  exact ⟨put v s, by simp only [anyField, hv, if_true]⟩

theorem structField_total (name : String) (fields : List (Field T)) (get : S → T)
    (put : T → S → S)
    (hf : ∀ f ∈ fields, ∀ v, f.accepts v = true → ∀ s, ∃ s1, f.set v s = some s1)
    (v : JSON) (h : (structField name fields get put).accepts v = true) (s : S) :
    ∃ s1, (structField name fields get put).set v s = some s1 := by
  cases v with
  | obj ms =>
    simp only [structField] at h ⊢
    obtain ⟨t, ht⟩ := decodeMembers_total fields hf ms (wellFormed_typed fields ms h) (get s)
    rw [ht]
    exact ⟨_, rfl⟩
  | _ => simp_all [structField]

/-! ### The kinds of field: what they leave alone -/

theorem intField_frame {α : Type} (g : S → α) (name : String) (get : S → Int)
    (put : Int → S → S) (hg : ∀ a s, g (put a s) = g s) (v : JSON) (s s1 : S)
    (h : (intField name get put).set v s = some s1) : g s1 = g s := by
  cases v <;> simp only [intField] at h
  · cases h; rfl
  · exact Option.noConfusion h
  · split at h
    · cases h; exact hg _ _
    · exact Option.noConfusion h
  all_goals exact Option.noConfusion h

theorem stringField_frame {α : Type} (g : S → α) (name : String) (get : S → String)
    (put : String → S → S) (hg : ∀ a s, g (put a s) = g s) (v : JSON) (s s1 : S)
    (h : (stringField name get put).set v s = some s1) : g s1 = g s := by
  cases v <;> simp only [stringField] at h
  · cases h; rfl
  · exact Option.noConfusion h
  · exact Option.noConfusion h
  · exact Option.noConfusion h
  · cases h; exact hg _ _
  all_goals exact Option.noConfusion h

theorem boolField_frame {α : Type} (g : S → α) (name : String) (get : S → Bool)
    (put : Bool → S → S) (hg : ∀ a s, g (put a s) = g s) (v : JSON) (s s1 : S)
    (h : (boolField name get put).set v s = some s1) : g s1 = g s := by
  cases v <;> simp only [boolField] at h
  · cases h; rfl
  · cases h; exact hg _ _
  all_goals exact Option.noConfusion h

theorem timeField_frame {α : Type} (g : S → α) (tc : TimeJSON) (name : String)
    (get : S → Time) (put : Time → S → S) (hg : ∀ a s, g (put a s) = g s) (v : JSON) (s s1 : S)
    (h : (timeField tc name get put).set v s = some s1) : g s1 = g s := by
  cases v <;> simp only [timeField] at h
  · cases h; rfl
  · exact Option.noConfusion h
  · exact Option.noConfusion h
  · exact Option.noConfusion h
  · split at h
    · exact Option.noConfusion h
    · cases h; exact hg _ _
  all_goals exact Option.noConfusion h

theorem anyField_frame {α : Type} (g : S → α) (name : String) (get : S → JSON)
    (put : JSON → S → S) (hg : ∀ a s, g (put a s) = g s) (v : JSON) (s s1 : S)
    (h : (anyField name get put).set v s = some s1) : g s1 = g s := by
  simp only [anyField] at h
  split at h
  · cases h; exact hg _ _
  · exact Option.noConfusion h

theorem structField_frame {α : Type} (g : S → α) (name : String) (fields : List (Field T))
    (get : S → T) (put : T → S → S) (hg : ∀ a s, g (put a s) = g s) (v : JSON) (s s1 : S)
    (h : (structField name fields get put).set v s = some s1) : g s1 = g s := by
  cases v <;> simp only [structField] at h
  · cases h; rfl
  · exact Option.noConfusion h
  · exact Option.noConfusion h
  · exact Option.noConfusion h
  · exact Option.noConfusion h
  · exact Option.noConfusion h
  · split at h
    · exact Option.noConfusion h
    · cases h; exact hg _ _

/-- What a struct field holds after its own member has been decoded. -/
theorem structField_set_obj (name : String) (fields : List (Field T)) (get : S → T)
    (put : T → S → S) (ms : List (String × JSON)) (s s1 : S)
    (h : (structField name fields get put).set (JSON.obj ms) s = some s1) :
    ∃ t, decodeMembers fields ms (get s) = some t ∧ s1 = put t s := by
  simp only [structField] at h
  cases ht : decodeMembers fields ms (get s) with
  | none => rw [ht] at h; exact Option.noConfusion h
  | some t => rw [ht] at h; cases h; exact ⟨t, rfl, rfl⟩

/-! ### The kinds of field: what they preserve -/

theorem intField_preserves (P : S → Prop) (name : String) (get : S → Int) (put : Int → S → S)
    (hp : ∀ n s, inInt n = true → P s → P (put n s)) (v : JSON) (s s1 : S) (hs : P s)
    (h : (intField name get put).set v s = some s1) : P s1 := by
  cases v <;> simp only [intField] at h
  · cases h; exact hs
  · exact Option.noConfusion h
  · split at h
    · next hn => cases h; exact hp _ _ hn hs
    · exact Option.noConfusion h
  all_goals exact Option.noConfusion h

theorem stringField_preserves (P : S → Prop) (name : String) (get : S → String)
    (put : String → S → S) (hp : ∀ a s, P s → P (put a s)) (v : JSON) (s s1 : S) (hs : P s)
    (h : (stringField name get put).set v s = some s1) : P s1 := by
  cases v <;> simp only [stringField] at h
  · cases h; exact hs
  · exact Option.noConfusion h
  · exact Option.noConfusion h
  · exact Option.noConfusion h
  · cases h; exact hp _ _ hs
  all_goals exact Option.noConfusion h

theorem boolField_preserves (P : S → Prop) (name : String) (get : S → Bool)
    (put : Bool → S → S) (hp : ∀ a s, P s → P (put a s)) (v : JSON) (s s1 : S) (hs : P s)
    (h : (boolField name get put).set v s = some s1) : P s1 := by
  cases v <;> simp only [boolField] at h
  · cases h; exact hs
  · cases h; exact hp _ _ hs
  all_goals exact Option.noConfusion h

theorem anyField_preserves (P : S → Prop) (name : String) (get : S → JSON)
    (put : JSON → S → S) (hp : ∀ a s, a.storable = true → P s → P (put a s)) (v : JSON)
    (s s1 : S) (hs : P s) (h : (anyField name get put).set v s = some s1) : P s1 := by
  simp only [anyField] at h
  split at h
  · next hv => cases h; exact hp _ _ hv hs
  · exact Option.noConfusion h

theorem timeField_preserves (tc : TimeJSON) (hf : tc.Faithful) (P : S → Prop) (name : String)
    (get : S → Time) (put : Time → S → S) (hp : ∀ t s, Stable tc t → P s → P (put t s))
    (v : JSON) (s s1 : S) (hs : P s)
    (h : (timeField tc name get put).set v s = some s1) : P s1 := by
  cases v <;> simp only [timeField] at h
  · cases h; exact hs
  · exact Option.noConfusion h
  · exact Option.noConfusion h
  · exact Option.noConfusion h
  · split at h
    · exact Option.noConfusion h
    · next t ht => cases h; exact hp _ _ (hf.2 _ _ ht) hs
  all_goals exact Option.noConfusion h

theorem structField_preserves (P : S → Prop) (Pt : T → Prop) (name : String)
    (fields : List (Field T)) (get : S → T) (put : T → S → S)
    (hfields : ∀ f ∈ fields, ∀ v t t1, Pt t → f.set v t = some t1 → Pt t1)
    (hget : ∀ s, P s → Pt (get s)) (hp : ∀ t s, Pt t → P s → P (put t s))
    (v : JSON) (s s1 : S) (hs : P s)
    (h : (structField name fields get put).set v s = some s1) : P s1 := by
  cases v with
  | null => simp only [structField] at h; cases h; exact hs
  | obj ms =>
    obtain ⟨t, ht, rfl⟩ := structField_set_obj _ _ _ _ _ _ _ h
    exact hp _ _ (decodeMembers_invariant fields Pt hfields ms (get s) t (hget s hs) ht) hs
  | _ => simp only [structField] at h; exact Option.noConfusion h

end CodecFacts

/-! ### The field tables of `Deployment` -/

theorem commitFields_total (tc : TimeJSON) :
    ∀ f ∈ commitFields tc, ∀ v, f.accepts v = true → ∀ s, ∃ s1, f.set v s = some s1 := by
  unfold commitFields
  simp only [List.forall_mem_cons]
  repeat' apply And.intro
  all_goals first
    | exact stringField_total _ _ _
    | exact intField_total _ _ _
    | exact boolField_total _ _ _
    | exact timeField_total _ _ _ _
    | exact anyField_total _ _ _
    | (intro x hx; cases hx)

theorem deployableUserFields_total (tc : TimeJSON) :
    ∀ f ∈ deployableUserFields tc, ∀ v, f.accepts v = true → ∀ s, ∃ s1, f.set v s = some s1 := by
  unfold deployableUserFields
  simp only [List.forall_mem_cons]
  repeat' apply And.intro
  all_goals first
    | exact stringField_total _ _ _
    | exact intField_total _ _ _
    | exact boolField_total _ _ _
    | exact timeField_total _ _ _ _
    | exact anyField_total _ _ _
    | (intro x hx; cases hx)

theorem environmentFields_total :
    ∀ f ∈ environmentFields, ∀ v, f.accepts v = true → ∀ s, ∃ s1, f.set v s = some s1 := by
  unfold environmentFields
  simp only [List.forall_mem_cons]
  repeat' apply And.intro
  all_goals first
    | exact stringField_total _ _ _
    | exact intField_total _ _ _
    | (intro x hx; cases hx)

theorem userFields_total :
    ∀ f ∈ userFields, ∀ v, f.accepts v = true → ∀ s, ∃ s1, f.set v s = some s1 := by
  unfold userFields
  simp only [List.forall_mem_cons]
  repeat' apply And.intro
  all_goals first
    | exact stringField_total _ _ _
    | exact intField_total _ _ _
    | (intro x hx; cases hx)

theorem deployableFields_total (tc : TimeJSON) :
    ∀ f ∈ deployableFields tc, ∀ v, f.accepts v = true → ∀ s, ∃ s1, f.set v s = some s1 := by
  unfold deployableFields
  simp only [List.forall_mem_cons]
  repeat' apply And.intro
  all_goals first
    | exact stringField_total _ _ _
    | exact intField_total _ _ _
    | exact boolField_total _ _ _
    | exact timeField_total _ _ _ _
    | exact anyField_total _ _ _
    | exact structField_total _ _ _ _ (commitFields_total tc)
    | exact structField_total _ _ _ _ (deployableUserFields_total tc)
    | (intro x hx; cases hx)

theorem deploymentFields_total (tc : TimeJSON) :
    ∀ f ∈ deploymentFields tc, ∀ v, f.accepts v = true → ∀ s, ∃ s1, f.set v s = some s1 := by
  unfold deploymentFields
  simp only [List.forall_mem_cons]
  repeat' apply And.intro
  all_goals first
    | exact stringField_total _ _ _
    | exact intField_total _ _ _
    | exact timeField_total _ _ _ _
    | exact structField_total _ _ _ _ (deployableFields_total tc)
    | exact structField_total _ _ _ _ environmentFields_total
    | exact structField_total _ _ _ _ userFields_total
    | (intro x hx; cases hx)

/-- In a `Deployment`, only the member `id` writes `ID`. -/
theorem deploymentFields_frame_ID (tc : TimeJSON) :
    ∀ f ∈ deploymentFields tc, f.name ≠ "id" →
      ∀ v s s1, f.set v s = some s1 → s1.ID = s.ID := by
  unfold deploymentFields
  simp only [List.forall_mem_cons]
  repeat' apply And.intro
  all_goals first
    | (intro h; exact absurd rfl h)
    | (intro _; exact stringField_frame _ _ _ _ (fun _ _ => rfl))
    | (intro _; exact intField_frame _ _ _ _ (fun _ _ => rfl))
    | (intro _; exact timeField_frame _ _ _ _ _ (fun _ _ => rfl))
    | (intro _; exact structField_frame _ _ _ _ _ (fun _ _ => rfl))
    | (intro x hx; cases hx)

/-- In a `Deployment`, only the member `environment` writes `Environment`. -/
theorem deploymentFields_frame_Environment (tc : TimeJSON) :
    ∀ f ∈ deploymentFields tc, f.name ≠ "environment" →
      ∀ v s s1, f.set v s = some s1 → s1.Environment = s.Environment := by
  unfold deploymentFields
  simp only [List.forall_mem_cons]
  repeat' apply And.intro
  all_goals first
    | (intro h; exact absurd rfl h)
    | (intro _; exact stringField_frame _ _ _ _ (fun _ _ => rfl))
    | (intro _; exact intField_frame _ _ _ _ (fun _ _ => rfl))
    | (intro _; exact timeField_frame _ _ _ _ _ (fun _ _ => rfl))
    | (intro _; exact structField_frame _ _ _ _ _ (fun _ _ => rfl))
    | (intro x hx; cases hx)

/-- In a `Deployment`, only the member `deployable` writes `Deployable`. -/
theorem deploymentFields_frame_Deployable (tc : TimeJSON) :
    ∀ f ∈ deploymentFields tc, f.name ≠ "deployable" →
      ∀ v s s1, f.set v s = some s1 → s1.Deployable = s.Deployable := by
  unfold deploymentFields
  simp only [List.forall_mem_cons]
  repeat' apply And.intro
  all_goals first
    | (intro h; exact absurd rfl h)
    | (intro _; exact stringField_frame _ _ _ _ (fun _ _ => rfl))
    | (intro _; exact intField_frame _ _ _ _ (fun _ _ => rfl))
    | (intro _; exact timeField_frame _ _ _ _ _ (fun _ _ => rfl))
    | (intro _; exact structField_frame _ _ _ _ _ (fun _ _ => rfl))
    | (intro x hx; cases hx)

/-- In an `Environment`, only the member `name` writes `Name`. -/
theorem environmentFields_frame_Name :
    ∀ f ∈ environmentFields, f.name ≠ "name" →
      ∀ v s s1, f.set v s = some s1 → s1.Name = s.Name := by
  unfold environmentFields
  simp only [List.forall_mem_cons]
  repeat' apply And.intro
  all_goals first
    | (intro h; exact absurd rfl h)
    | (intro _; exact stringField_frame _ _ _ _ (fun _ _ => rfl))
    | (intro _; exact intField_frame _ _ _ _ (fun _ _ => rfl))
    | (intro x hx; cases hx)

/-- In a `Deployable`, only the member `status` writes `Status`. -/
theorem deployableFields_frame_Status (tc : TimeJSON) :
    ∀ f ∈ deployableFields tc, f.name ≠ "status" →
      ∀ v s s1, f.set v s = some s1 → s1.Status = s.Status := by
  unfold deployableFields
  simp only [List.forall_mem_cons]
  repeat' apply And.intro
  all_goals first
    | (intro h; exact absurd rfl h)
    | (intro _; exact stringField_frame _ _ _ _ (fun _ _ => rfl))
    | (intro _; exact intField_frame _ _ _ _ (fun _ _ => rfl))
    | (intro _; exact boolField_frame _ _ _ _ (fun _ _ => rfl))
    | (intro _; exact timeField_frame _ _ _ _ _ (fun _ _ => rfl))
    | (intro _; exact anyField_frame _ _ _ _ (fun _ _ => rfl))
    | (intro _; exact structField_frame _ _ _ _ _ (fun _ _ => rfl))
    | (intro x hx; cases hx)

/-- C8: decoding a JSON array that holds one well-formed deployment object (no
two members address the same field, every member carries a value of its
field's type, at every nesting level) yields exactly one `Deployment`, whose
`ID` is the object's `id`, whose `Environment.Name` is its `environment.name`
and whose `Deployable.Status` is its `deployable.status`; for the object of the
specification this gives ID 1, `production` and `success` (and Iid 1, Ref
`main`, Sha `abc123`, Environment.ID 5, Deployable.ID 10). -/
theorem decodeDeployments_one (tc : TimeJSON) (ms envms depms : List (String × JSON))
    (i : Int) (n st : String)
    (hwf : wellFormed (deploymentFields tc) ms = true)
    (hid : ("id", JSON.int i) ∈ ms)
    (henv : ("environment", JSON.obj envms) ∈ ms) (hname : ("name", JSON.str n) ∈ envms)
    (hdep : ("deployable", JSON.obj depms) ∈ ms) (hst : ("status", JSON.str st) ∈ depms) :
    (∃ d, decodeDeployments tc (JSON.arr [JSON.obj ms]) = some (some [some d]) ∧
        d.ID = i ∧ d.Environment.Name = n ∧ d.Deployable.Status = st) ∧
      (∃ d, decodeDeployments tc (JSON.arr [specDeployment]) = some (some [some d]) ∧
        d.ID = 1 ∧ d.Environment.Name = "production" ∧ d.Deployable.Status = "success" ∧
        d.Iid = 1 ∧ d.Ref = "main" ∧ d.Sha = "abc123" ∧ d.Environment.ID = 5 ∧
        d.Deployable.ID = 10) := by
  refine ⟨?_, ⟨_, rfl, rfl, rfl, rfl, rfl, rfl, rfl, rfl, rfl⟩⟩
  have hty := wellFormed_typed _ _ hwf
  have hnd := wellFormed_nodup _ _ hwf
  obtain ⟨d, hd⟩ := decodeMembers_total (deploymentFields tc) (deploymentFields_total tc) ms hty {}
  refine ⟨d, ?_, ?_, ?_, ?_⟩
  · simp only [decodeDeployments, decodeElements, decodeElement, hd]
  · refine decodeMembers_value (deploymentFields tc) (fun d => d.ID) "id"
      (intField "id" (fun s => s.ID) (fun a s => { s with ID := a })) (JSON.int i) i
      (deploymentFields_frame_ID tc) rfl rfl ?_ ms hid hnd {} d hd
    intro s s1 h
    simp only [intField] at h
    split at h
    · cases h; rfl
    · exact Option.noConfusion h
  · have hacc := typedMembers_mem (deploymentFields tc) ms hty "environment" (JSON.obj envms)
      henv (structField "environment" environmentFields (fun s => s.Environment)
        (fun a s => { s with Environment := a })) rfl
    have hwfe : wellFormed environmentFields envms = true := hacc
    refine decodeMembers_value (deploymentFields tc) (fun d => d.Environment.Name)
      "environment" (structField "environment" environmentFields (fun s => s.Environment)
        (fun a s => { s with Environment := a })) (JSON.obj envms) n
      (fun f hf hne v s s1 h => by
        show s1.Environment.Name = s.Environment.Name
        rw [deploymentFields_frame_Environment tc f hf hne v s s1 h])
      rfl rfl ?_ ms henv hnd {} d hd
    intro s s1 h
    obtain ⟨t, ht, rfl⟩ := structField_set_obj _ _ _ _ _ _ _ h
    show t.Name = n
    refine decodeMembers_value environmentFields (fun e => e.Name) "name"
      (stringField "name" (fun s => s.Name) (fun a s => { s with Name := a })) (JSON.str n) n
      environmentFields_frame_Name rfl rfl ?_ envms hname
      (wellFormed_nodup _ _ hwfe) _ t ht
    intro s s1 h
    simp only [stringField] at h
    cases h; rfl
  · have hacc := typedMembers_mem (deploymentFields tc) ms hty "deployable" (JSON.obj depms)
      hdep (structField "deployable" (deployableFields tc) (fun s => s.Deployable)
        (fun a s => { s with Deployable := a })) rfl
    have hwfd : wellFormed (deployableFields tc) depms = true := hacc
    refine decodeMembers_value (deploymentFields tc) (fun d => d.Deployable.Status)
      "deployable" (structField "deployable" (deployableFields tc) (fun s => s.Deployable)
        (fun a s => { s with Deployable := a })) (JSON.obj depms) st
      (fun f hf hne v s s1 h => by
        show s1.Deployable.Status = s.Deployable.Status
        rw [deploymentFields_frame_Deployable tc f hf hne v s s1 h])
      rfl rfl ?_ ms hdep hnd {} d hd
    intro s s1 h
    obtain ⟨t, ht, rfl⟩ := structField_set_obj _ _ _ _ _ _ _ h
    show t.Status = st
    refine decodeMembers_value (deployableFields tc) (fun e => e.Status) "status"
      (stringField "status" (fun s => s.Status) (fun a s => { s with Status := a }))
      (JSON.str st) st (deployableFields_frame_Status tc)
      rfl rfl ?_ depms hst (wellFormed_nodup _ _ hwfd) _ t ht
    intro s s1 h
    simp only [stringField] at h
    cases h; rfl

/-! ### Decoding yields valid values -/

theorem commitFields_valid (tc : TimeJSON) (hf : tc.Faithful) :
    ∀ f ∈ commitFields tc, ∀ v s s1, DeployableCommit.Valid tc s → f.set v s = some s1 →
      DeployableCommit.Valid tc s1 := by
  unfold commitFields
  simp only [List.forall_mem_cons]
  repeat' apply And.intro
  all_goals first
    | exact stringField_preserves _ _ _ _ (fun _ _ hs => hs)
    | exact timeField_preserves tc hf _ _ _ _ (fun _ _ ht _ => ht)
    | (intro x hx; cases hx)

theorem deployableUserFields_valid (tc : TimeJSON) (hf : tc.Faithful) :
    ∀ f ∈ deployableUserFields tc, ∀ v s s1, DeployableUser.Valid tc s → f.set v s = some s1 →
      DeployableUser.Valid tc s1 := by
  unfold deployableUserFields
  simp only [List.forall_mem_cons]
  repeat' apply And.intro
  all_goals first
    | exact stringField_preserves _ _ _ _ (fun _ _ hs => hs)
    | exact anyField_preserves _ _ _ _ (fun _ _ ha hs => ⟨hs.1, hs.2.1, ha, hs.2.2.2⟩)
    | exact anyField_preserves _ _ _ _ (fun _ _ ha hs => ⟨hs.1, hs.2.1, hs.2.2.1, ha⟩)
    | exact timeField_preserves tc hf _ _ _ _ (fun _ _ ht hs => ⟨ht, hs.2⟩)
    | exact intField_preserves _ _ _ _ (fun _ _ hn hs => ⟨hs.1, hn, hs.2.2⟩)
    | (intro x hx; cases hx)

theorem environmentFields_valid :
    ∀ f ∈ environmentFields, ∀ v s s1, Environment.Valid s → f.set v s = some s1 →
      Environment.Valid s1 := by
  unfold environmentFields
  simp only [List.forall_mem_cons]
  repeat' apply And.intro
  all_goals first
    | exact stringField_preserves _ _ _ _ (fun _ _ hs => hs)
    | exact intField_preserves _ _ _ _ (fun _ _ hn _ => hn)
    | (intro x hx; cases hx)

theorem userFields_valid :
    ∀ f ∈ userFields, ∀ v s s1, User.Valid s → f.set v s = some s1 → User.Valid s1 := by
  unfold userFields
  simp only [List.forall_mem_cons]
  repeat' apply And.intro
  all_goals first
    | exact stringField_preserves _ _ _ _ (fun _ _ hs => hs)
    | exact intField_preserves _ _ _ _ (fun _ _ hn _ => hn)
    | (intro x hx; cases hx)

theorem deployableFields_valid (tc : TimeJSON) (hf : tc.Faithful) :
    ∀ f ∈ deployableFields tc, ∀ v s s1, Deployable.Valid tc s → f.set v s = some s1 →
      Deployable.Valid tc s1 := by
  unfold deployableFields
  simp only [List.forall_mem_cons]
  repeat' apply And.intro
  all_goals first
    | exact stringField_preserves _ _ _ _ (fun _ _ hs => hs)
    | exact anyField_preserves _ _ _ _ (fun _ _ ha hs =>
        ⟨hs.1, hs.2.1, hs.2.2.1, hs.2.2.2.1, hs.2.2.2.2.1, ha, hs.2.2.2.2.2.2⟩)
    | exact anyField_preserves _ _ _ _ (fun _ _ ha hs =>
        ⟨hs.1, hs.2.1, hs.2.2.1, hs.2.2.2.1, hs.2.2.2.2.1, hs.2.2.2.2.2.1, ha,
          hs.2.2.2.2.2.2.2⟩)
    | exact anyField_preserves _ _ _ _ (fun _ _ ha hs =>
        ⟨hs.1, hs.2.1, hs.2.2.1, hs.2.2.2.1, hs.2.2.2.2.1, hs.2.2.2.2.2.1,
          hs.2.2.2.2.2.2.1, ha⟩)
    | exact boolField_preserves _ _ _ _ (fun _ _ hs => hs)
    | exact timeField_preserves tc hf _ _ _ _
        (fun _ _ ht hs => ⟨hs.1, ht, hs.2.2⟩)
    | exact timeField_preserves tc hf _ _ _ _
        (fun _ _ ht hs => ⟨hs.1, hs.2.1, ht, hs.2.2.2⟩)
    | exact intField_preserves _ _ _ _
        (fun _ _ hn hs => ⟨hs.1, hs.2.1, hs.2.2.1, hn, hs.2.2.2.2⟩)
    | exact structField_preserves _ (DeployableCommit.Valid tc) _ _ _ _
        (commitFields_valid tc hf) (fun _ hs => hs.1)
        (fun _ _ ht hs => ⟨ht, hs.2⟩)
    | exact structField_preserves _ (DeployableUser.Valid tc) _ _ _ _
        (deployableUserFields_valid tc hf) (fun _ hs => hs.2.2.2.2.1)
        (fun _ _ ht hs => ⟨hs.1, hs.2.1, hs.2.2.1, hs.2.2.2.1, ht, hs.2.2.2.2.2⟩)
    | (intro x hx; cases hx)

theorem deploymentFields_valid (tc : TimeJSON) (hf : tc.Faithful) :
    ∀ f ∈ deploymentFields tc, ∀ v s s1, Deployment.Valid tc s → f.set v s = some s1 →
      Deployment.Valid tc s1 := by
  unfold deploymentFields
  simp only [List.forall_mem_cons]
  repeat' apply And.intro
  all_goals first
    | exact stringField_preserves _ _ _ _ (fun _ _ hs => hs)
    | exact timeField_preserves tc hf _ _ _ _
        (fun _ _ ht hs => ⟨ht, hs.2.1, hs.2.2.1, hs.2.2.2.1, hs.2.2.2.2.1, hs.2.2.2.2.2⟩)
    | exact intField_preserves _ _ _ _
        (fun _ _ hn hs => ⟨hs.1, hs.2.1, hs.2.2.1, hn, hs.2.2.2.2.1, hs.2.2.2.2.2⟩)
    | exact intField_preserves _ _ _ _
        (fun _ _ hn hs => ⟨hs.1, hs.2.1, hs.2.2.1, hs.2.2.2.1, hn, hs.2.2.2.2.2⟩)
    | exact structField_preserves _ (Deployable.Valid tc) _ _ _ _
        (deployableFields_valid tc hf) (fun _ hs => hs.2.1)
        (fun _ _ ht hs => ⟨hs.1, ht, hs.2.2.1, hs.2.2.2.1, hs.2.2.2.2.1, hs.2.2.2.2.2⟩)
    | exact structField_preserves _ Environment.Valid _ _ _ _
        environmentFields_valid (fun _ hs => hs.2.2.1)
        (fun _ _ ht hs => ⟨hs.1, hs.2.1, ht, hs.2.2.2.1, hs.2.2.2.2.1, hs.2.2.2.2.2⟩)
    | exact structField_preserves _ User.Valid _ _ _ _
        userFields_valid (fun _ hs => hs.2.2.2.2.2)
        (fun _ _ ht hs => ⟨hs.1, hs.2.1, hs.2.2.1, hs.2.2.2.1, hs.2.2.2.2.1, ht⟩)
    | (intro x hx; cases hx)

/-- The zero `Deployment` is valid. -/
theorem zero_valid (tc : TimeJSON) (hf : tc.Faithful) : Deployment.Valid tc {} :=
  ⟨hf.1, ⟨hf.1, hf.1, hf.1, rfl, ⟨hf.1, rfl, rfl, rfl⟩, rfl, rfl, rfl⟩, rfl, rfl, rfl, rfl⟩

/-! ### Encoding and decoding again -/

theorem encodeMembers_nil {S : Type} (s : S) : encodeMembers s [] = some [] := rfl

theorem encodeMembers_cons {S : Type} (s : S) (f : Field S) (rest : List (Field S)) :
    encodeMembers s (f :: rest) =
      match f.enc s with
      | none => none
      | some j =>
        match encodeMembers s rest with
        | none => none
        | some ms => some ((f.name, j) :: ms) := rfl

theorem decodeMembers_nil {S : Type} (fields : List (Field S)) (s : S) :
    decodeMembers fields [] s = some s := rfl

theorem decodeMembers_cons {S : Type} (fields : List (Field S)) (k : String) (v : JSON)
    (rest : List (String × JSON)) (s : S) :
    decodeMembers fields ((k, v) :: rest) s =
      match findField fields k with
      | none => decodeMembers fields rest s
      | some f =>
        match f.set v s with
        | none => none
        | some s1 => decodeMembers fields rest s1 := rfl

theorem commit_roundtrip (tc : TimeJSON) (c : DeployableCommit)
    (hv : DeployableCommit.Valid tc c) :
    ∃ ms, encodeMembers c (commitFields tc) = some ms ∧
      ∀ z, decodeMembers (commitFields tc) ms z = some c := by
  obtain ⟨x, hm, hu⟩ := hv
  cases h : encodeMembers c (commitFields tc) with
  | none => simp [encodeMembers_nil, encodeMembers_cons, commitFields, stringField, timeField, hm] at h
  | some ms =>
    refine ⟨ms, rfl, fun z => ?_⟩
    simp only [encodeMembers_nil, encodeMembers_cons, commitFields, stringField, timeField, hm, Option.some.injEq] at h
    subst h
    simp [decodeMembers_nil, decodeMembers_cons, findField, commitFields, stringField, timeField, hu]

theorem deployableUser_roundtrip (tc : TimeJSON) (u : DeployableUser)
    (hv : DeployableUser.Valid tc u) :
    ∃ ms, encodeMembers u (deployableUserFields tc) = some ms ∧
      ∀ z, decodeMembers (deployableUserFields tc) ms z = some u := by
  obtain ⟨⟨x, hm, hu⟩, hi, hb, hl⟩ := hv
  cases h : encodeMembers u (deployableUserFields tc) with
  | none =>
    simp [encodeMembers_nil, encodeMembers_cons, deployableUserFields, stringField, timeField, intField, anyField, hm] at h
  | some ms =>
    refine ⟨ms, rfl, fun z => ?_⟩
    simp only [encodeMembers_nil, encodeMembers_cons, deployableUserFields, stringField, timeField, intField, anyField,
      hm, Option.some.injEq] at h
    subst h
    simp [decodeMembers_nil, decodeMembers_cons, findField, deployableUserFields, stringField, timeField, intField,
      anyField, hu, hi, hb, hl]

theorem environment_roundtrip (e : Environment) (hv : Environment.Valid e) :
    ∃ ms, encodeMembers e environmentFields = some ms ∧
      ∀ z, decodeMembers environmentFields ms z = some e := by
  have hi : inInt e.ID = true := hv
  cases h : encodeMembers e environmentFields with
  | none => simp [encodeMembers_nil, encodeMembers_cons, environmentFields, stringField, intField] at h
  | some ms =>
    refine ⟨ms, rfl, fun z => ?_⟩
    simp only [encodeMembers_nil, encodeMembers_cons, environmentFields, stringField, intField, Option.some.injEq] at h
    subst h
    simp [decodeMembers_nil, decodeMembers_cons, findField, environmentFields, stringField, intField, hi]

theorem user_roundtrip (u : User) (hv : User.Valid u) :
    ∃ ms, encodeMembers u userFields = some ms ∧
      ∀ z, decodeMembers userFields ms z = some u := by
  have hi : inInt u.ID = true := hv
  cases h : encodeMembers u userFields with
  | none => simp [encodeMembers_nil, encodeMembers_cons, userFields, stringField, intField] at h
  | some ms =>
    refine ⟨ms, rfl, fun z => ?_⟩
    simp only [encodeMembers_nil, encodeMembers_cons, userFields, stringField, intField, Option.some.injEq] at h
    subst h
    simp [decodeMembers_nil, decodeMembers_cons, findField, userFields, stringField, intField, hi]

theorem deployable_roundtrip (tc : TimeJSON) (p : Deployable) (hv : Deployable.Valid tc p) :
    ∃ ms, encodeMembers p (deployableFields tc) = some ms ∧
      ∀ z, decodeMembers (deployableFields tc) ms z = some p := by
  obtain ⟨hc, ⟨x1, hm1, hu1⟩, ⟨x2, hm2, hu2⟩, hi, hus, ha1, ha2, ha3⟩ := hv
  obtain ⟨msC, hencC, hdecC⟩ := commit_roundtrip tc p.Commit hc
  obtain ⟨msU, hencU, hdecU⟩ := deployableUser_roundtrip tc p.User hus
  cases h : encodeMembers p (deployableFields tc) with
  | none =>
    simp [encodeMembers_nil, encodeMembers_cons, deployableFields, stringField, timeField, intField, anyField, boolField,
      structField, hm1, hm2, hencC, hencU] at h
  | some ms =>
    refine ⟨ms, rfl, fun z => ?_⟩
    simp only [encodeMembers_nil, encodeMembers_cons, deployableFields, stringField, timeField, intField, anyField,
      boolField, structField, hm1, hm2, hencC, hencU, Option.some.injEq] at h
    subst h
    simp [decodeMembers_nil, decodeMembers_cons, findField, deployableFields, stringField, timeField, intField,
      anyField, boolField, structField, hu1, hu2, hi, hdecC, hdecU, ha1, ha2, ha3]

theorem deployment_roundtrip (tc : TimeJSON) (d : Deployment) (hv : Deployment.Valid tc d) :
    ∃ ms, encodeMembers d (deploymentFields tc) = some ms ∧
      ∀ z, decodeMembers (deploymentFields tc) ms z = some d := by
  obtain ⟨⟨x1, hm1, hu1⟩, hp, he, hi1, hi2, hus⟩ := hv
  obtain ⟨msP, hencP, hdecP⟩ := deployable_roundtrip tc d.Deployable hp
  obtain ⟨msE, hencE, hdecE⟩ := environment_roundtrip d.Environment he
  obtain ⟨msU, hencU, hdecU⟩ := user_roundtrip d.User hus
  cases h : encodeMembers d (deploymentFields tc) with
  | none =>
    simp [encodeMembers_nil, encodeMembers_cons, deploymentFields, stringField, timeField, intField, structField,
      hm1, hencP, hencE, hencU] at h
  | some ms =>
    refine ⟨ms, rfl, fun z => ?_⟩
    simp only [encodeMembers_nil, encodeMembers_cons, deploymentFields, stringField, timeField, intField, structField,
      hm1, hencP, hencE, hencU, Option.some.injEq] at h
    subst h
    simp [decodeMembers_nil, decodeMembers_cons, findField, deploymentFields, stringField, timeField, intField,
      structField, hu1, hi1, hi2, hdecP, hdecE, hdecU]

theorem sampleTimeJSON_faithful : sampleTimeJSON.Faithful := by
  refine ⟨⟨"0001-01-01T00:00:00Z", by decide, by decide⟩, ?_⟩
  intro x t h
  simp only [sampleTimeJSON] at h
  split_ifs at h with h1 h2
  · cases h
    exact ⟨"0001-01-01T00:00:00Z", by decide, by decide⟩
  · cases h
    exact ⟨"2017-06-01T12:00:00Z", by decide, by decide⟩

/-- The tags of each struct of `Deployment` are pairwise distinct. -/
theorem field_names_distinct (tc : TimeJSON) :
    ((deploymentFields tc).map (fun f => f.name)).Nodup ∧
      ((deployableFields tc).map (fun f => f.name)).Nodup ∧
      ((commitFields tc).map (fun f => f.name)).Nodup ∧
      ((deployableUserFields tc).map (fun f => f.name)).Nodup ∧
      (environmentFields.map (fun f => f.name)).Nodup ∧
      (userFields.map (fun f => f.name)).Nodup := by
  refine ⟨?_, ?_, ?_, ?_, ?_, ?_⟩
  · show ["created_at", "deployable", "environment", "id", "iid", "ref", "sha", "user"].Nodup
    decide
  · show ["commit", "coverage", "created_at", "finished_at", "id", "name", "ref", "runner",
      "stage", "started_at", "status", "tag", "user"].Nodup
    decide
  · show ["author_email", "author_name", "created_at", "id", "message", "short_id",
      "title"].Nodup
    decide
  · show ["avatar_url", "bio", "created_at", "id", "linkedin", "location", "name", "skype",
      "state", "twitter", "username", "web_url", "website_url"].Nodup
    decide
  · show ["external_url", "id", "name"].Nodup
    decide
  · show ["avatar_url", "id", "name", "state", "username", "web_url"].Nodup
    decide

theorem decodeDeployments_one_witness :
    wellFormed (deploymentFields sampleTimeJSON) specDeploymentMembers = true ∧
      decodeDeployments sampleTimeJSON (JSON.arr [specDeployment]) =
        some (some [some specDecoded]) ∧
      ∃ d, decodeDeployments sampleTimeJSON (JSON.arr [JSON.obj specDeploymentMembers]) =
          some (some [some d]) ∧
        d.ID = 1 ∧ d.Environment.Name = "production" ∧ d.Deployable.Status = "success" :=
  ⟨rfl, rfl,
    (decodeDeployments_one sampleTimeJSON specDeploymentMembers specEnvironmentMembers
      specDeployableMembers 1 "production" "success" rfl
      (by simp [specDeploymentMembers]) (by simp [specDeploymentMembers])
      (by simp [specEnvironmentMembers]) (by simp [specDeploymentMembers])
      (by simp [specDeployableMembers])).1⟩

/-- C9: a `Deployment` obtained by decoding a JSON object is encoded to an object
that decodes to a `Deployment` with the same strongly typed fields (the fields
`Coverage`, `Runner`, `StartedAt`, `Bio` and `Location` left aside), given that
`time.Time` reads back the times it writes; and within each struct the JSON keys
of the fields are pairwise distinct. -/
theorem Deployment_roundtrip (tc : TimeJSON) (hf : tc.Faithful) (o : JSON) (d : Deployment)
    (h : decodeElement tc o = some (some d)) :
    (∃ j, encodeDeployment tc d = some j ∧
        ∃ d1, decodeElement tc j = some (some d1) ∧ stronglyTyped d1 = stronglyTyped d) ∧
      ((deploymentFields tc).map (fun f => f.name)).Nodup ∧
      ((deployableFields tc).map (fun f => f.name)).Nodup ∧
      ((commitFields tc).map (fun f => f.name)).Nodup ∧
      ((deployableUserFields tc).map (fun f => f.name)).Nodup ∧
      (environmentFields.map (fun f => f.name)).Nodup ∧
      (userFields.map (fun f => f.name)).Nodup := by
  refine ⟨?_, field_names_distinct tc⟩
  have hv : Deployment.Valid tc d := by
    cases o with
    | obj ms =>
      simp only [decodeElement] at h
      cases hd : decodeMembers (deploymentFields tc) ms {} with
      | none => rw [hd] at h; exact Option.noConfusion h
      | some d0 =>
        rw [hd] at h
        simp only [Option.some.injEq] at h
        subst h
        exact decodeMembers_invariant (deploymentFields tc) (Deployment.Valid tc)
          (deploymentFields_valid tc hf) ms {} d0 (zero_valid tc hf) hd
    | null => simp only [decodeElement] at h; cases h
    | _ => simp only [decodeElement] at h; exact Option.noConfusion h
  obtain ⟨ms1, henc, hdec⟩ := deployment_roundtrip tc d hv
  refine ⟨JSON.obj ms1, ?_, d, ?_, rfl⟩
  · simp only [encodeDeployment, henc]
  · simp only [decodeElement, hdec]

theorem Deployment_roundtrip_witness :
    sampleTimeJSON.Faithful ∧
      decodeElement sampleTimeJSON datedDeployment = some (some datedDecoded) ∧
      ∃ j, encodeDeployment sampleTimeJSON datedDecoded = some j ∧
        ∃ d1, decodeElement sampleTimeJSON j = some (some d1) ∧
          stronglyTyped d1 = stronglyTyped datedDecoded :=
  ⟨sampleTimeJSON_faithful, rfl,
    (Deployment_roundtrip sampleTimeJSON sampleTimeJSON_faithful datedDeployment datedDecoded
      rfl).1⟩

/-! ## The results of `ListDeployments` -/

/-- C5: when `parseID`, `NewRequest` and `Do` all succeed, `ListDeployments`
returns a nil error, the response `Do` returned and the very slice `Do` left in
the decode target (same records, same order, same length); when that slice is
what decoding an empty JSON array gives, the result is the empty sequence. -/
theorem ListDeployments_success {Q R F σ : Type} (parseID : PID → GoString × Option Error)
    (m : ClientMethods Q R F σ) (c : Client Q F σ) (pid : PID) (opt : ListDeploymentsOptions)
    (options : List F) (s : GoString) (req : Ptr Q) (st1 st2 : σ)
    (tgt : Slice (Ptr Deployment)) (resp : Ptr R)
    (hp : parseID pid = (s, none))
    (hn : m.NewRequest (str "GET") (str "projects/" ++ QueryEscape s ++ str "/deployments")
      opt options c.state = ((req, none), st1))
    (hd : m.Do req none st1 = (⟨tgt, resp, none⟩, st2)) :
    (ListDeployments parseID m c pid opt options).1 = (tgt, resp, none) ∧
      (∀ tc : TimeJSON, decodeDeployments tc (JSON.arr []) = some tgt →
        (ListDeployments parseID m c pid opt options).1 = (some [], resp, none)) := by
  have key : (ListDeployments parseID m c pid opt options).1 = (tgt, resp, none) := by
    rw [ListDeployments_exit_ok parseID m c pid opt options s req st1 st2 tgt resp hp hn hd]
  refine ⟨key, ?_⟩
  intro tc htc
  simp only [decodeDeployments, decodeElements, Option.some.injEq] at htc
  rw [key, ← htc]

theorem ListDeployments_success_witness :
    parseID (PID.string (str "namespace/project")) = (str "namespace/project", none) ∧
      (ListDeployments parseID okMethods ⟨0, []⟩ (PID.string (str "namespace/project")) {} []).1
        = (some [], some 200, none) :=
  ⟨by decide,
    (ListDeployments_success parseID okMethods ⟨0, []⟩ (PID.string (str "namespace/project"))
      {} [] (str "namespace/project") (some (str "GET projects/namespace%2Fproject/deployments"))
      1 2 (some []) (some 200) (by decide) rfl rfl).1⟩

/-! ## The query string -/

theorem mem_queryPtr (key : String) (o : Option GoString) (k v : GoString) :
    (k, v) ∈ queryPtr key o ↔ k = str key ∧ o = some v := by
  cases o with
  | none => simp [queryPtr]
  | some x =>
    simp only [queryPtr, List.mem_singleton, Prod.mk.injEq, Option.some.injEq]
    constructor
    · rintro ⟨h1, h2⟩; exact ⟨h1, h2.symm⟩
    · rintro ⟨h1, h2⟩; exact ⟨h1, h2.symm⟩

theorem mem_queryInt (key : String) (n : Int) (k v : GoString) :
    (k, v) ∈ queryInt key n ↔ k = str key ∧ n ≠ 0 ∧ v = Itoa n := by
  unfold queryInt
  split_ifs with h
  · simp [h]
  · simp only [List.mem_singleton, Prod.mk.injEq]
    constructor
    · rintro ⟨h1, h2⟩; exact ⟨h1, h, h2⟩
    · rintro ⟨h1, _, h2⟩; exact ⟨h1, h2⟩

theorem keys_queryPtr (key : String) (o : Option GoString) :
    ((queryPtr key o).map Prod.fst).Sublist [str key] := by
  cases o <;> simp [queryPtr]

theorem keys_queryInt (key : String) (n : Int) :
    ((queryInt key n).map Prod.fst).Sublist [str key] := by
  unfold queryInt
  split_ifs <;> simp

/-- C6: the query parameters of an options value are exactly those of its set
fields: `order_by`, `sort`, `search` appear when their pointer is set, with the
value pointed to; `page` and `per_page` appear when non-zero, with their decimal
text; no key appears twice and there is no other key. With only `Search` set to
`prod` the query string is exactly `search=prod`. -/
theorem queryValues_exactly_set (opt : ListDeploymentsOptions) :
    (∀ k v, (k, v) ∈ queryValues opt ↔
        (k = str "order_by" ∧ opt.OrderBy = some v) ∨
        (k = str "sort" ∧ opt.Sort_ = some v) ∨
        (k = str "search" ∧ opt.Search = some v) ∨
        (k = str "page" ∧ opt.Page ≠ 0 ∧ v = Itoa opt.Page) ∨
        (k = str "per_page" ∧ opt.PerPage ≠ 0 ∧ v = Itoa opt.PerPage)) ∧
      ((queryValues opt).map Prod.fst).Nodup ∧
      queryValues { Search := some (str "prod") } = [(str "search", str "prod")] ∧
      RawQuery { Search := some (str "prod") } = str "search=prod" ∧
      RawQuery { Search := some (str "prod"), Page := 2, OrderBy := some (str "id") } =
        str "order_by=id&page=2&search=prod" := by
  refine ⟨?_, ?_, by decide, by decide, by decide⟩
  · intro k v
    simp only [queryValues, List.mem_append, mem_queryPtr, mem_queryInt, or_assoc]
  · have hsub : ((queryValues opt).map Prod.fst).Sublist
        ([str "order_by"] ++ [str "sort"] ++ [str "search"] ++ [str "page"] ++
          [str "per_page"]) := by
      simp only [queryValues, List.map_append]
      exact ((((keys_queryPtr _ _).append (keys_queryPtr _ _)).append
        (keys_queryPtr _ _)).append (keys_queryInt _ _)).append (keys_queryInt _ _)
    exact List.Nodup.sublist hsub (by decide)

end Gitlab
